import Mathlib

/-!
Shallow embedding of `src/search_news.py` (korea-daily-weather-briefing).

Conventions used throughout this development:

* Text is modelled as `List Char`; Python's `str` indexing/slicing becomes
  list operations.
* All page coordinates and widths are modelled as `Int`, measured in units
  of 1/635 pt.  Every numeric constant appearing in the source is an exact
  integer in this unit: 1 pt = 635 units and 1 mm = 72/25.4 pt = 1800 units
  (reportlab's `mm`), so e.g. `line_height = 14` pt is 8890 units and
  `0.7 * line_height` is exactly 6223 units.  This keeps the whole layout
  computation exact and kernel-computable.
* `reportlab.pdfbase.pdfmetrics.stringWidth` is an external font-metrics
  oracle; it is modelled as an arbitrary width-function parameter
  (`WidthFn`).  Font sizes stay in pt (as the `int` the source passes).
* Canvas drawing calls are modelled by emitting an explicit list of
  `DrawOp` values in execution order.
-/

namespace SearchNews

/-- The two registered fonts of the script: `KOREAN_FONT_NAME = "NanumGothic"`
and `EMOJI_FONT_NAME = "NotoEmoji"` (src/search_news.py:31-35). -/
inductive Font where
  | korean
  | emoji
deriving DecidableEq, Repr

/-- Font-metrics oracle modelling `pdfmetrics.stringWidth(text, font, size)`:
an arbitrary function from a string, a font and a pt size to a width in
1/635 pt units. -/
abbrev WidthFn := List Char → Font → Int → Int

/-- One canvas operation of the PDF drawing pass.  `text` models
`canvas.drawString` (together with the preceding `setFont`), `rect` models
`canvas.rect`/`canvas.roundRect` (fills; colors are not observed by any
claim and are omitted), `image` models `canvas.drawImage`, `linkRect`
models `canvas.linkURL`, and `newPage` models `canvas.showPage`. -/
inductive DrawOp where
  | text (font : Font) (size : Int) (x y : Int) (str : List Char)
  | rect (x y w h : Int)
  | image (x y w h : Int) (src : List Char)
  | linkRect (url : List Char) (x0 y0 x1 y1 : Int)
  | newPage
deriving DecidableEq, Repr

/-- The string payloads of the text-drawing operations of a list, in order. -/
def textsOf (ops : List DrawOp) : List (List Char) :=
  ops.filterMap fun op =>
    match op with
    | .text _ _ _ _ s => some s
    | _ => none

/-- Concatenation of all drawn string payloads. -/
def joinTexts (ops : List DrawOp) : List Char :=
  (textsOf ops).flatten

/-- The `linkRect` operations of a list, in order. -/
def linksOf (ops : List DrawOp) : List (List Char × Int × Int × Int × Int) :=
  ops.filterMap fun op =>
    match op with
    | .linkRect u x0 y0 x1 y1 => some (u, x0, y0, x1, y1)
    | _ => none

/-- The `image` operations of a list, in order. -/
def imagesOf (ops : List DrawOp) : List DrawOp :=
  ops.filter fun op =>
    match op with
    | .image _ _ _ _ _ => true
    | _ => false

/-- Models `is_emoji` (src/search_news.py:155-161): a character is Symbol-class iff
its codepoint lies in the Misc-Symbols-and-Pictographs, Misc-Symbols, or
Dingbats ranges. -/
def is_emoji (ch : Char) : Bool :=
  (0x1F300 ≤ ch.toNat && ch.toNat ≤ 0x1FAFF)
  || (0x2600 ≤ ch.toNat && ch.toNat ≤ 0x26FF)
  || (0x2700 ≤ ch.toNat && ch.toNat ≤ 0x27BF)

/-- The character loop of `draw_segment_with_emoji` (src/search_news.py:174-192):
walks the string, buffering Primary-script characters, flushing the buffer as a
text op (in `text_font`) at each Symbol character, which is then drawn in
`emoji_font`; a trailing buffer is flushed at the end.  Returns the emitted
ops and the final cursor position. -/
def drawSegGo (sw : WidthFn) (tf ef : Font) (fs : Int) (y : Int) :
    Int → List Char → List Char → List DrawOp × Int
  | cursor, buf, [] =>
    if buf = [] then ([], cursor)
    else ([.text tf fs cursor y buf], cursor + sw buf tf fs)
  | cursor, buf, ch :: rest =>
    if is_emoji ch then
      let flush : List DrawOp × Int :=
        if buf = [] then ([], cursor)
        else ([.text tf fs cursor y buf], cursor + sw buf tf fs)
      let c2 := flush.2 + sw [ch] ef fs
      let rec_ := drawSegGo sw tf ef fs y c2 [] rest
      (flush.1 ++ DrawOp.text ef fs flush.2 y [ch] :: rec_.1, rec_.2)
    else
      drawSegGo sw tf ef fs y cursor (buf ++ [ch]) rest

/-- Models `draw_segment_with_emoji` (src/search_news.py:163-194): draws a single
segment at `(x, y)` with per-character font fallback and returns the emitted
ops together with the width advanced (`cursor_x - x`). -/
def draw_segment_with_emoji (sw : WidthFn) (x y : Int) (text : List Char)
    (text_font emoji_font : Font) (font_size : Int) : List DrawOp × Int :=
  let r := drawSegGo sw text_font emoji_font font_size y x [] text
  (r.1, r.2 - x)

/-- The character loop of `measure_text_width` (src/search_news.py:263-277):
the same run decomposition as `drawSegGo`, summing widths without drawing. -/
def measureGo (sw : WidthFn) (tf ef : Font) (fs : Int) :
    Int → List Char → List Char → Int
  | width, buf, [] => if buf = [] then width else width + sw buf tf fs
  | width, buf, ch :: rest =>
    if is_emoji ch then
      let w1 := if buf = [] then width else width + sw buf tf fs
      measureGo sw tf ef fs (w1 + sw [ch] ef fs) [] rest
    else
      measureGo sw tf ef fs width (buf ++ [ch]) rest

/-- Models `measure_text_width` (src/search_news.py:260-279). -/
def measure_text_width (sw : WidthFn) (text : List Char)
    (text_font emoji_font : Font) (font_size : Int) : Int :=
  measureGo sw text_font emoji_font font_size 0 [] text

/-- 1 pt in coordinate units (see the header comment: 1 pt = 635 units). -/
def pt : Int := 635

/-- One attempted match of `re.compile(r'\[([^\]]+)\]\(([^)]+)\)')`
(src/search_news.py:212) anchored at the head of the string: `[`, a nonempty
run of non-`]` characters closed by `]`, then `(`, a nonempty run of
non-`)` characters closed by `)`.  Because each character class excludes its
own closing delimiter, the regex engine's greedy matching with backtracking
is equivalent to this deterministic scan.  Returns `(title, url, rest)`. -/
def linkAt (s : List Char) : Option (List Char × List Char × List Char) :=
  match s with
  | '[' :: t =>
    let title := t.takeWhile (fun x => x != ']')
    let r1 := t.dropWhile (fun x => x != ']')
    if title = [] then none
    else
      match r1 with
      | ']' :: '(' :: r2 =>
        let url := r2.takeWhile (fun x => x != ')')
        let r3 := r2.dropWhile (fun x => x != ')')
        if url = [] then none
        else
          match r3 with
          | ')' :: rest => some (title, url, rest)
          | _ => none
      | _ => none
  | _ => none

/-- The scan of `pattern.finditer(line)` (src/search_news.py:214): try a
match at every position left to right; on a match, resume after its end.
Returns the matches as `(preceding-plain-text, title, url)` triples together
with the trailing plain text after the last match.  `fuel` bounds the
recursion; `findLinks` supplies enough for the whole string. -/
def findLinksGo (fuel : Nat) (pre : List Char) (s : List Char) :
    List (List Char × List Char × List Char) × List Char :=
  match fuel with
  | 0 => ([], pre ++ s)
  | fuel + 1 =>
    match s with
    | [] => ([], pre)
    | c :: rest =>
      match linkAt (c :: rest) with
      | some (title, url, after) =>
        let r := findLinksGo fuel [] after
        ((pre, title, url) :: r.1, r.2)
      | none => findLinksGo fuel (pre ++ [c]) rest

/-- All `[title](url)` matches of a line, with the plain text between them,
plus the trailing plain text. -/
def findLinks (s : List Char) :
    List (List Char × List Char × List Char) × List Char :=
  findLinksGo s.length [] s

/-- The full source text covered by one match: pre ++ `[title](url)`. -/
def linkSpanText (m : List Char × List Char × List Char) : List Char :=
  m.1 ++ '[' :: (m.2.1 ++ ']' :: '(' :: (m.2.2 ++ [')']))

/-- The per-match loop of `draw_markdown_line_with_links`
(src/search_news.py:214-248): draw the plain text before the link (if
nonempty), then the visible title, then register the clickable rectangle
`(link_x_start, y - 2, link_x_end, y + font_size)` for the URL, advancing
the x-cursor to the end of the title. -/
def drawLinksGo (sw : WidthFn) (tf ef : Font) (fs y : Int) :
    Int → List (List Char × List Char × List Char) → List DrawOp × Int
  | cursor, [] => ([], cursor)
  | cursor, (pre, title, url) :: ms =>
    let c1 := if pre = [] then cursor
      else cursor + (draw_segment_with_emoji sw cursor y pre tf ef fs).2
    let preOps := if pre = [] then ([] : List DrawOp)
      else (draw_segment_with_emoji sw cursor y pre tf ef fs).1
    let tR := draw_segment_with_emoji sw c1 y title tf ef fs
    let c2 := c1 + tR.2
    let r := drawLinksGo sw tf ef fs y c2 ms
    (preOps ++ tR.1 ++ DrawOp.linkRect url c1 (y - 2 * pt) c2 (y + fs * pt) :: r.1,
     r.2)

/-- Models `draw_markdown_line_with_links` (src/search_news.py:196-258): draw one
markdown line; `[title](url)` spans render only the title, with a clickable
rectangle; the tail after the last link is drawn as plain text. -/
def draw_markdown_line_with_links (sw : WidthFn) (x y : Int)
    (line : List Char) (tf ef : Font) (fs : Int) : List DrawOp :=
  let fl := findLinks line
  let r := drawLinksGo sw tf ef fs y x fl.1
  r.1 ++ (if fl.2 = [] then []
    else (draw_segment_with_emoji sw r.2 y fl.2 tf ef fs).1)

/-- Spec-side (§4.6 / C3): the expected clickable rectangles, one per link
span, each spanning from the x-cursor position just before the title's
rendered glyphs to the position just after them, mapped to that span's URL,
at vertical extent `y - 2` pt to `y + font_size` pt. -/
def specLinkRects (sw : WidthFn) (tf ef : Font) (fs y : Int) :
    Int → List (List Char × List Char × List Char) →
      List (List Char × Int × Int × Int × Int)
  | _, [] => []
  | cursor, (pre, title, url) :: ms =>
    let x0 := cursor + measure_text_width sw pre tf ef fs
    let x1 := x0 + measure_text_width sw title tf ef fs
    (url, x0, y - 2 * pt, x1, y + fs * pt) :: specLinkRects sw tf ef fs y x1 ms

/-- One step of the splitting loop of `post_to_discord`
(src/search_news.py:132-151), returning the sequence of posted message
bodies: if appending the next line (plus a newline) would exceed the limit,
the accumulated chunk is posted and the chunk restarts from the line;
otherwise the line is appended; a nonempty final chunk is posted at the
end. -/
def postLoop : List Char → List (List Char) → List (List Char)
  | chunk, [] => if chunk = [] then [] else [chunk]
  | chunk, line :: rest =>
    if 2000 < chunk.length + line.length + 1 then
      chunk :: postLoop (line ++ ['\n']) rest
    else
      postLoop (chunk ++ line ++ ['\n']) rest

/-- Models `post_to_discord` (src/search_news.py:111-153): the sequence of message
bodies posted to the webhook.  Falsy (empty) content posts nothing; content
within the 2000-character limit posts as a single message; otherwise the
content is split at newlines by the loop. -/
def post_to_discord (content : List Char) : List (List Char) :=
  if content = [] then []
  else if content.length ≤ 2000 then [content]
  else postLoop [] (content.splitOn '\n')

/-! ### The paragraph wrapper

`generate_weather_news_pdf_from_markdown` wraps text with
`textwrap.TextWrapper(width=max_chars_per_line)` where
`max_chars_per_line = 55` (src/search_news.py:426-427) — a width measured
in characters.  The wrapper implementation itself is Python's standard
library, not part of this repository; the definitions below are modelled
from its documented algorithm with the constructor's default options
(`expand_tabs=True`, `replace_whitespace=True`, `drop_whitespace=True`,
`break_long_words=True`, `break_on_hyphens=True`, empty indents, no
`max_lines`).  Character classes (`\s`, `\w`) are modelled at
ASCII/alphanumeric scope, which covers every input these claims exercise. -/

/-- Whitespace for the embedding of `str.strip()` / regex `\s`
(ASCII scope). -/
def isPySpace (c : Char) : Bool :=
  c = ' ' || c = '\t' || c = '\n' || c = '\x0b' || c = '\x0c' || c = '\r'

/-- Python `str.strip()` (ASCII-whitespace scope). -/
def pyStrip (s : List Char) : List Char :=
  ((s.dropWhile isPySpace).reverse.dropWhile isPySpace).reverse

/-- Regex `\w` (word character), at alphanumeric-plus-underscore scope. -/
def isWordChar (c : Char) : Bool := c.isAlphanum || c = '_'

/-- Regex `[^\d\W]` (word character that is not a digit). -/
def isLetterW (c : Char) : Bool := isWordChar c && !c.isDigit

/-- The stdlib wrapper's `word_punct` class `[\w!"&.,?]` plus apostrophe:
a word character or sentence-punctuation character. -/
def isWordPunct (c : Char) : Bool :=
  isWordChar c || c = '!' || c = '"' || c = Char.ofNat 39 || c = '&' ||
    c = '.' || c = ',' || c = '?'

/-- Modelled from the spec: Python `str.expandtabs(8)` (stdlib, not under
src/), the first step of `TextWrapper._munge_whitespace`. -/
def expandtabsGo (col : Nat) : List Char → List Char
  | [] => []
  | c :: rest =>
    if c = '\t' then
      List.replicate (8 - col % 8) ' ' ++ expandtabsGo 0 rest
    else if c = '\n' || c = '\r' then c :: expandtabsGo 0 rest
    else c :: expandtabsGo (col + 1) rest

/-- Modelled from the spec: `TextWrapper._munge_whitespace` (stdlib):
expand tabs, then translate each of `\t\n\x0b\x0c\r` to a space. -/
def munge (s : List Char) : List Char :=
  (expandtabsGo 0 s).map fun c =>
    if c = '\t' || c = '\n' || c = '\x0b' || c = '\x0c' || c = '\r'
    then ' ' else c

/-- Length of the leading run of `-` characters. -/
def hyphenRun : List Char → Nat
  | [] => 0
  | c :: r => if c = '-' then hyphenRun r + 1 else 0

/-- Lookbehind of `wordsep_re`'s hyphenated-word alternative, applied to the
(reversed) characters before a candidate break hyphen: they must end in
letter-letter or letter-hyphen-letter. -/
def hyphLookbehind : List Char → Bool
  | a :: b :: rest =>
    (isLetterW a && isLetterW b) ||
      (isLetterW a && b = '-' &&
        (match rest with | c :: _ => isLetterW c | [] => false))
  | _ => false

/-- Lookahead of the hyphenated-word alternative (`[^\d\W]-?[^\d\W]`),
applied to the characters after the break hyphen. -/
def hyphLookahead : List Char → Bool
  | d :: e :: rest =>
    isLetterW d && (isLetterW e ||
      (e = '-' && (match rest with | f :: _ => isLetterW f | [] => false)))
  | _ => false

/-- Does a hyphenated-word break fire at this position (`rev` = reversed
characters before it)?  This is the first alternative inside the lazy token
of `wordsep_re`: it consumes a `-` whose lookbehind and lookahead match. -/
def hyphBreakAt (rev : List Char) : List Char → Bool
  | [] => false
  | c :: rest => c = '-' && hyphLookbehind rev && hyphLookahead rest

/-- The em-dash lookahead alternative (`(?<=word_punct)(?=-{2,}\w)`):
previous char is a word/punct character and at least two hyphens followed
by a word char lie ahead. -/
def emDashAhead (rev s : List Char) : Bool :=
  (match rev with | a :: _ => isWordPunct a | [] => false) &&
    (let k := hyphenRun s
     decide (2 ≤ k) &&
       (match s.drop k with | w :: _ => isWordChar w | [] => false))

/-- The standalone em-dash alternative of `wordsep_re`
(`(?<=word_punct)-{2,}(?=\w)`), tried before the lazy token at each
non-space position: a run of two or more hyphens after a word/punct
character and before a word character becomes its own chunk. -/
def emDashChunk (rev s : List Char) : Option (List Char × List Char) :=
  match rev with
  | p :: _ =>
    if isWordPunct p then
      let k := hyphenRun s
      if 2 ≤ k then
        match s.drop k with
        | w :: _ => if isWordChar w then some (s.take k, s.drop k) else none
        | [] => none
      else none
    else none
  | [] => none

/-- The lazy word token of `wordsep_re` (`\S+?` followed by the
hyphen-break / end-of-word / em-dash alternatives, tried in that order
after each consumed character).  Called with the first character already
consumed.  Returns the token and the remaining input. -/
def tokenScanGo (rev tok : List Char) : List Char → List Char × List Char
  | [] => (tok, [])
  | c :: rest =>
    if hyphBreakAt rev (c :: rest) then (tok ++ [c], rest)
    else if isPySpace c then (tok, c :: rest)
    else if emDashAhead rev (c :: rest) then (tok, c :: rest)
    else tokenScanGo (c :: rev) (tok ++ [c]) rest

/-- Modelled from the spec: the chunk splitter
`[c for c in wordsep_re.split(text) if c]` of the stdlib `TextWrapper`:
maximal whitespace runs, standalone em-dashes, and lazily-delimited word
tokens, scanned left to right (every position starts a match, so the split
has no unmatched residue).  `fuel` bounds the recursion; `splitChunks`
supplies enough for the whole string. -/
def splitGo (fuel : Nat) (rev : List Char) (s : List Char) :
    List (List Char) :=
  match fuel with
  | 0 => []
  | fuel + 1 =>
    match s with
    | [] => []
    | c :: rest =>
      if isPySpace c then
        let ws := (c :: rest).takeWhile isPySpace
        ws :: splitGo fuel (ws.reverse ++ rev) ((c :: rest).dropWhile isPySpace)
      else
        match emDashChunk rev (c :: rest) with
        | some (chunk, after) =>
          chunk :: splitGo fuel (chunk.reverse ++ rev) after
        | none =>
          let t := tokenScanGo (c :: rev) [c] rest
          t.1 :: splitGo fuel (t.1.reverse ++ rev) t.2

/-- All whitespace/word chunks of a munged line. -/
def splitChunks (s : List Char) : List (List Char) := splitGo s.length [] s

/-- Total character count of a chunk list. -/
def totalLen (chunks : List (List Char)) : Nat :=
  (chunks.map List.length).sum

/-- The greedy inner loop of `TextWrapper._wrap_chunks`: move chunks onto
the current line while the accumulated length stays within the width.
Returns the line's chunks and the remaining chunks. -/
def fillGreedy (width : Nat) : Nat → List (List Char) →
    List (List Char) × List (List Char)
  | _, [] => ([], [])
  | curLen, c :: rest =>
    if curLen + c.length ≤ width then
      let r := fillGreedy width (curLen + c.length) rest
      (c :: r.1, r.2)
    else ([], c :: rest)

/-- Index of the last character satisfying `p`, if any. -/
def rfindIdxGo (p : Char → Bool) : List Char → Option Nat
  | [] => none
  | c :: rest =>
    match rfindIdxGo p rest with
    | some j => some (j + 1)
    | none => if p c then some 0 else none

/-- Models `chunk.rfind('-', 0, bound)` (returning `none` for -1). -/
def rfindHyphen (chunk : List Char) (bound : Nat) : Option Nat :=
  rfindIdxGo (fun c => c = '-') (chunk.take bound)

/-- Modelled from the spec: `TextWrapper._handle_long_word` (stdlib) with
`break_long_words=True` and `break_on_hyphens=True`: break a chunk longer
than the full width at the space left on the current line, preferring a
position just after the last hyphen within that space (when preceded by a
non-hyphen).  Returns the piece placed on the current line and the
remainder. -/
def handleLongWord (width curLen : Nat) (chunk : List Char) :
    List Char × List Char :=
  let spaceLeft := if width < 1 then 1 else width - curLen
  let endIdx :=
    if spaceLeft < chunk.length then
      match rfindHyphen chunk spaceLeft with
      | some hy =>
        if 0 < hy && (chunk.take hy).any (fun c => c != '-')
        then hy + 1 else spaceLeft
      | none => spaceLeft
    else spaceLeft
  (chunk.take endIdx, chunk.drop endIdx)

/-- The `drop_whitespace` deletion of a leading whitespace chunk, applied
only once at least one line exists. -/
def dropLeadingWs (hasLines : Bool) (chunks : List (List Char)) :
    List (List Char) :=
  match chunks with
  | [] => []
  | c0 :: rest0 => if pyStrip c0 = [] && hasLines then rest0 else c0 :: rest0

/-- The long-word stage of `_wrap_chunks`: if the next chunk is longer than
the whole width, break it via `handleLongWord` onto the current line. -/
def fitLongWord (width : Nat) (fg : List (List Char) × List (List Char)) :
    List (List Char) × List (List Char) :=
  match fg.2 with
  | c :: r =>
    if width < c.length then
      let hl := handleLongWord width (totalLen fg.1) c
      (fg.1 ++ [hl.1], hl.2 :: r)
    else (fg.1, fg.2)
  | [] => (fg.1, fg.2)

/-- The `drop_whitespace` deletion of a trailing whitespace chunk from the
current line. -/
def dropTrailingWs (line : List (List Char)) : List (List Char) :=
  match line.getLast? with
  | some t => if pyStrip t = [] then line.dropLast else line
  | none => line

/-- Modelled from the spec: one outer iteration of
`TextWrapper._wrap_chunks` (stdlib): drop a leading whitespace chunk (once
a line exists), fill greedily, break a chunk longer than the whole width,
and drop a trailing whitespace chunk.  Returns the chunks of the produced
line (possibly none) and the remaining chunks. -/
def wrapStep (width : Nat) (hasLines : Bool) (chunks : List (List Char)) :
    List (List Char) × List (List Char) :=
  match dropLeadingWs hasLines chunks with
  | [] => ([], [])
  | c :: rest =>
    let fg := fillGreedy width 0 (c :: rest)
    let af := fitLongWord width fg
    (dropTrailingWs af.1, af.2)

/-- Modelled from the spec: the outer loop of `TextWrapper._wrap_chunks`
(stdlib), iterating `wrapStep` and emitting the joined line whenever the
step leaves chunks on it.  `fuel` bounds the recursion (each iteration
consumes at least one character); `pyWrap` supplies enough. -/
def wrapChunksGo (width : Nat) : Nat → Bool → List (List Char) →
    List (List Char)
  | 0, _, _ => []
  | _ + 1, _, [] => []
  | fuel + 1, hasLines, c0 :: rest0 =>
    let st := wrapStep width hasLines (c0 :: rest0)
    if st.1 = [] then wrapChunksGo width fuel hasLines st.2
    else st.1.flatten :: wrapChunksGo width fuel true st.2

/-- Modelled from the spec: `TextWrapper(width).wrap(text)` (stdlib), as
invoked by the renderer: munge whitespace, split into chunks, and build
lines greedily.  Documented contract: every output line is at most `width`
characters long, and words longer than `width` are broken. -/
def pyWrap (width : Nat) (text : List Char) : List (List Char) :=
  let chunks := splitChunks (munge text)
  wrapChunksGo width (totalLen chunks + 1) false chunks

/-- C1 counterexample input: 28 one-character tokens separated by single
spaces — 55 characters in total, so the wrapper keeps them on one line. -/
def c1str : List Char :=
  ("a a a a a a a a a a a a a a a a a a a a a a a a a a a a").toList

/-- A concrete font-metrics oracle for the counterexample: every character
one unit wide. -/
def swCount : WidthFn := fun t _ _ => (t.length : Int)

/-- Whitespace-delimited tokens of a string (spec side, for C1's
`longest_token`). -/
def splitTokens (s : List Char) : List (List Char) :=
  (s.splitOnP (fun c => isPySpace c)).filter (fun t => !t.isEmpty)

/-! ### The PDF renderer

`generate_weather_news_pdf_from_markdown` (src/search_news.py:371-658).
Geometry is exact in 1/635 pt units: `pt = 635`, `mm = 1800`
(reportlab's `mm` is 72/25.4 pt = 1800/635 pt), and every fractional
multiple of `line_height = 14` pt used by the source (0.1, 0.2, 0.5, 0.7,
1.2) is an exact integer.  Colors, the round-rect radius, and the PDF byte
serialization are not observed by any claim and are not modelled. -/

/-- 1 mm in coordinate units (reportlab `mm`). -/
def mmu : Int := 1800

def pageWidth : Int := 210 * mmu
def pageHeight : Int := 297 * mmu
def margin_left : Int := 20 * mmu
def margin_top : Int := 25 * mmu
def margin_bottom : Int := 20 * mmu
def line_height : Int := 14 * pt
def header_height : Int := 25 * mmu
def pad_x : Int := 4 * mmu
def pad_y : Int := (3 * mmu) / 2
def rect_h : Int := 13 * pt + 2 * pad_y
def thumb_size : Int := 120 * pt

/-- The external collaborators of the renderer: the font-metrics oracle
(`pdfmetrics.stringWidth`), the thumbnail resolver (`get_thumbnail_url`,
src/search_news.py:281-313, whose network fetch/parse either yields an
image URL or fails to `None`), the image download of
`draw_thumbnail_from_url` (yielding the image's size, or `none` for any
fetch/decode failure), and the header's `strftime` subtitle text. -/
structure RenderEnv where
  sw : WidthFn
  getThumb : List Char → Option (List Char)
  fetchImage : List Char → Option (Int × Int)
  headerSub : List Char

/-- Models `draw_thumbnail_from_url` (src/search_news.py:315-369): falsy URL or a
failed download/decode draws nothing; otherwise the square size is clamped
to the image height, the image is drawn at `(x, y)` and a clickable
rectangle over it is registered.  `Int` division stands in for the
source's float aspect-ratio division (no claim observes the width). -/
def draw_thumbnail_from_url (env : RenderEnv) (image_url link_url : List Char)
    (x y size : Int) : List DrawOp :=
  if image_url = [] then []
  else
    match env.fetchImage image_url with
    | none => []
    | some (w, h) =>
      let size2 := if size > h then h else size
      let thumb_w := size2 * w / h
      DrawOp.image x y thumb_w size2 image_url ::
        (if link_url = [] then []
         else [DrawOp.linkRect link_url x y (x + thumb_w) (y + size2)])

/-- Which branch of the per-line dispatch executed (observable outcome of
the `if`/`continue` chain of the rendering loop). -/
inductive Branch where
  | blank
  | sourcesHeader
  | headline
  | bulletLink (inSources : Bool)
  | bulletPlain
  | para
deriving DecidableEq, Repr

/-- Models `raw_line.rstrip("\n")` (src/search_news.py:432). -/
def rstripNl (s : List Char) : List Char :=
  (s.reverse.dropWhile (fun c => c = '\n')).reverse

/-- Does `s` contain `pat` as a contiguous substring (Python `in`)? -/
def containsSub (s pat : List Char) : Bool :=
  s.tails.any (fun t => pat.isPrefixOf t)

/-- The blank/rule test (src/search_news.py:435):
`line.strip() == "" or line.strip() == "---"`. -/
def isBlankLine (line : List Char) : Bool :=
  pyStrip line = [] || pyStrip line = ['-', '-', '-']

/-- The sources-header test (src/search_news.py:442):
`line.strip().startswith("**📚") and "Real Sources" in line`. -/
def isSourcesHeader (line : List Char) : Bool :=
  (['*', '*', '📚'].isPrefixOf (pyStrip line)) &&
    containsSub line (("Real Sources").toList)

/-- Models `line.strip().strip("*")` (src/search_news.py:452). -/
def stripStars (s : List Char) : List Char :=
  ((s.dropWhile (fun c => c = '*')).reverse.dropWhile
    (fun c => c = '*')).reverse

/-- The lazy closing scan of `re` pattern `\*\*(.+?)\*\*` after the opening
`**`: the shortest nonempty content followed by `**`.  Returns the content
and the remainder after the closing marker. -/
def boldCloseScan : List Char → Option (List Char × List Char)
  | [] => none
  | c :: rest =>
    match rest with
    | a :: b :: r2 =>
      if a = '*' ∧ b = '*' then some ([c], r2)
      else
        match boldCloseScan rest with
        | some (content, r) => some (c :: content, r)
        | none => none
    | _ => none

/-- A match of `\*\*(.+?)\*\*` anchored at the head of the string. -/
def boldAt (s : List Char) : Option (List Char × List Char) :=
  match s with
  | a :: b :: t => if a = '*' ∧ b = '*' then boldCloseScan t else none
  | _ => none

/-- Models `re.search(r"\*\*(.+?)\*\*", line)` (src/search_news.py:473): the
leftmost match, as `(text-before, content, text-after)`. -/
def boldSearch : List Char → Option (List Char × List Char × List Char)
  | [] => none
  | c :: rest =>
    match boldAt (c :: rest) with
    | some (content, after) => some ([], content, after)
    | none =>
      match boldSearch rest with
      | some (pre, content, after) => some (c :: pre, content, after)
      | none => none

/-- Models `re.sub(r"\*\*(.+?)\*\*", r"\1", line)` (src/search_news.py:474):
replace every (non-overlapping, left-to-right) emphasis pair by its
content.  `fuel` bounds the recursion; `subBold` supplies enough. -/
def subBoldGo (fuel : Nat) (s : List Char) : List Char :=
  match fuel with
  | 0 => s
  | fuel + 1 =>
    match boldSearch s with
    | none => s
    | some (pre, content, after) => pre ++ content ++ subBoldGo fuel after

def subBold (s : List Char) : List Char := subBoldGo s.length s

/-- The headline label (src/search_news.py:473-476): markers stripped when
an emphasis pair matches, otherwise the raw stripped line. -/
def headlineText (line : List Char) : List Char :=
  match boldSearch line with
  | some _ => pyStrip (subBold line)
  | none => pyStrip line

/-- The headline test (src/search_news.py:470-478): the line contains `**`
and the computed label is nonempty (an empty label falls through to the
bullet/paragraph branches). -/
def isHeadlineLine (line : List Char) : Bool :=
  containsSub line ['*', '*'] && !(headlineText line).isEmpty

/-- Models `re.match(r"^\s*[-*]\s+(.*)$", line)` (src/search_news.py:541): an
optional whitespace run, a bullet marker, at least one whitespace, then the
body. -/
def bulletMatch (s : List Char) : Option (List Char) :=
  match s.dropWhile isPySpace with
  | c :: rest =>
    if c = '-' || c = '*' then
      match rest with
      | d :: _ =>
        if isPySpace d then some (rest.dropWhile isPySpace) else none
      | [] => none
    else none
  | [] => none

/-- The bullet glyph prefix `"• "` (src/search_news.py:552). -/
def bulletMark : List Char := ['•', ' ']

/-- State threaded through the rendering loop: the y cursor and the
`in_sources_section` flag (src/search_news.py:429). -/
structure RState where
  y : Int
  inSources : Bool
deriving DecidableEq, Repr

/-- Initial text-area state (src/search_news.py:421, 429). -/
def initState : RState :=
  { y := pageHeight - header_height - 10 * mmu, inSources := false }

/-- The per-segment loop shared by the plain-bullet and paragraph branches
(src/search_news.py:613-631 and 637-651): page-break guard on the bare
cursor, draw the (possibly prefixed) segment, advance one line height. -/
def renderWrapSegs (env : RenderEnv) (x fs : Int)
    (firstMark contMark : List Char) :
    List (List Char) → Bool → Int → List DrawOp × Int
  | [], _, y => ([], y)
  | seg :: rest, isFirst, y =>
    let pb : List DrawOp × Int :=
      if y < margin_bottom then ([DrawOp.newPage], pageHeight - margin_top)
      else ([], y)
    let mark := if isFirst then firstMark else contMark
    let ops := draw_markdown_line_with_links env.sw x pb.2 (mark ++ seg)
      Font.korean Font.emoji fs
    let r := renderWrapSegs env x fs firstMark contMark rest false
      (pb.2 - line_height)
    (pb.1 ++ ops ++ r.1, r.2)

/-- The headline-segment loop (src/search_news.py:490-531): page-break
guard on the rectangle's own height, the background rectangle sized to the
measured text width, the text on top, cursor advanced by the rectangle
height plus a small gap. -/
def renderH2Segs (env : RenderEnv) :
    List (List Char) → Int → List DrawOp × Int
  | [], y => ([], y)
  | seg :: rest, y =>
    let pb : List DrawOp × Int :=
      if y - rect_h < margin_bottom
      then ([DrawOp.newPage], pageHeight - margin_top)
      else ([], y)
    let tw := measure_text_width env.sw seg Font.korean Font.emoji 13
    let rectOp := DrawOp.rect (margin_left - pad_x) (pb.2 - pad_y)
      (tw + 2 * pad_x) rect_h
    let textOps := draw_markdown_line_with_links env.sw margin_left pb.2 seg
      Font.korean Font.emoji 13
    let r := renderH2Segs env rest
      (pb.2 - rect_h - (line_height * 2) / 10)
    (pb.1 ++ rectOp :: (textOps ++ r.1), r.2)

/-- One iteration of the line loop of
`generate_weather_news_pdf_from_markdown` (src/search_news.py:431-651),
returning the new state, the emitted ops, and the branch taken. -/
def renderLine (env : RenderEnv) (st : RState) (raw_line : List Char) :
    RState × List DrawOp × Branch :=
  let line := rstripNl raw_line
  if isBlankLine line then
    ({ st with y := st.y - (line_height * 7) / 10 }, [], .blank)
  else if isSourcesHeader line then
    let y1 := st.y - (line_height * 5) / 10
    let pb : List DrawOp × Int :=
      if y1 < margin_bottom then ([DrawOp.newPage], pageHeight - margin_top)
      else ([], y1)
    let label := stripStars (pyStrip line)
    let ops := draw_markdown_line_with_links env.sw margin_left pb.2 label
      Font.korean Font.emoji 12
    ({ y := pb.2 - (line_height * 12) / 10, inSources := true },
     pb.1 ++ ops, .sourcesHeader)
  else if isHeadlineLine line then
    let y1 := st.y - (line_height * 5) / 10
    let pb : List DrawOp × Int :=
      if y1 < margin_bottom then ([DrawOp.newPage], pageHeight - margin_top)
      else ([], y1)
    let segs :=
      if pyWrap 55 (headlineText line) = [] then [([] : List Char)]
      else pyWrap 55 (headlineText line)
    let r := renderH2Segs env segs pb.2
    ({ st with y := r.2 - (line_height * 1) / 10 },
     pb.1 ++ r.1, .headline)
  else
    match bulletMatch line with
    | some text =>
      if (findLinks text).1 ≠ [] then
        let pb : List DrawOp × Int :=
          if st.y < margin_bottom
          then ([DrawOp.newPage], pageHeight - margin_top)
          else ([], st.y)
        if st.inSources then
          let linkUrl :=
            match (findLinks text).1 with
            | (_, _, u) :: _ => u
            | [] => []
          let thumbUrl :=
            match (findLinks text).1 with
            | _ :: _ => env.getThumb linkUrl
            | [] => none
          let thumb_x := margin_left + 4 * mmu
          let thumb_y := pb.2 - thumb_size - 5 * pt
          let big :=
            match thumbUrl with
            | some tu => !tu.isEmpty
            | none => false
          let tOps :=
            match thumbUrl with
            | some tu =>
              if tu.isEmpty then []
              else draw_thumbnail_from_url env tu linkUrl
                (thumb_x + 10 * pt) thumb_y thumb_size
            | none => []
          let textOps := draw_markdown_line_with_links env.sw thumb_x pb.2
            (bulletMark ++ text) Font.korean Font.emoji 10
          let y2 :=
            if big then pb.2 - (line_height + thumb_size + 10 * pt)
            else pb.2 - line_height
          ({ y := y2, inSources := st.inSources },
           pb.1 ++ tOps ++ textOps, .bulletLink true)
        else
          let textOps := draw_markdown_line_with_links env.sw
            (margin_left + 4 * mmu) pb.2 (bulletMark ++ text)
            Font.korean Font.emoji 11
          ({ y := pb.2 - line_height, inSources := st.inSources },
           pb.1 ++ textOps, .bulletLink false)
      else
        let wrapped :=
          if pyWrap 55 text = [] then [([] : List Char)]
          else pyWrap 55 text
        let r := renderWrapSegs env (margin_left + 4 * mmu) 11
          bulletMark [' ', ' '] wrapped true st.y
        ({ st with y := r.2 }, r.1, .bulletPlain)
    | none =>
      let wrapped :=
        if pyWrap 55 line = [] then [([] : List Char)]
        else pyWrap 55 line
      let r := renderWrapSegs env margin_left 11 [] [] wrapped true st.y
      ({ st with y := r.2 }, r.1, .para)

/-- The line loop, folding `renderLine` over the input lines. -/
def renderLines (env : RenderEnv) :
    List (List Char) → RState → RState × List DrawOp
  | [], st => (st, [])
  | l :: rest, st =>
    let r := renderLine env st l
    let r2 := renderLines env rest r.1
    (r2.1, r.2.1 ++ r2.2)

/-- Models `content_md.splitlines()` modelled for newline-separated text: split on
`'\n'`, without a trailing empty piece when the text ends in a newline. -/
def splitlines (s : List Char) : List (List Char) :=
  let parts := s.splitOn '\n'
  match parts.getLast? with
  | some t => if t = [] then parts.dropLast else parts
  | none => parts

/-- The fixed header title `"전세계 주요 기상 뉴스 요약"`
(src/search_news.py:397). -/
def headerTitle : List Char := ("전세계 주요 기상 뉴스 요약").toList

/-- The header bar and its two text lines (src/search_news.py:389-417). -/
def headerOps (env : RenderEnv) : List DrawOp :=
  let header_y := pageHeight - header_height + 8 * mmu
  DrawOp.rect 0 (pageHeight - header_height) pageWidth header_height ::
    ((draw_segment_with_emoji env.sw margin_left (header_y + 8 * pt)
        ('🌍' :: ' ' :: headerTitle) Font.korean Font.emoji 13).1 ++
     (draw_segment_with_emoji env.sw margin_left (header_y - 2 * pt)
        env.headerSub Font.korean Font.emoji 9).1)

/-- Models `generate_weather_news_pdf_from_markdown` (src/search_news.py:371-658):
the ordered sequence of canvas operations of the whole document — header,
the per-line rendering loop, and the final `showPage`. -/
def generate_weather_news_pdf_from_markdown (env : RenderEnv)
    (content_md : List Char) : List DrawOp :=
  headerOps env ++
    (renderLines env (splitlines content_md) initState).2 ++
    [DrawOp.newPage]

/-- A concrete environment for closed evaluations: unit-width metrics, a
resolver returning a fixed image URL, and a fixed square image. -/
def cexEnv : RenderEnv :=
  { sw := swCount
    getThumb := fun _ => some (("http://img").toList)
    fetchImage := fun _ => some (76200, 76200)
    headerSub := [] }

/-- The pagination discipline a draw op satisfies in the output: a text
op's baseline, and a (filled) rectangle's bottom edge, lie at or above the
bottom margin.  Images and clickable rectangles are not constrained (see
C2's counterexample: thumbnails may cross the bottom margin). -/
def opGuarded : DrawOp → Bool
  | .text _ _ _ y _ => decide (margin_bottom ≤ y)
  | .rect _ y _ _ => decide (margin_bottom ≤ y)
  | _ => true

def isNewPage : DrawOp → Bool
  | .newPage => true
  | _ => false

/-- Number of `showPage` calls in an op sequence. -/
def pageBreaks (ops : List DrawOp) : Nat := (ops.filter isNewPage).length

theorem textsOf_append (a b : List DrawOp) :
    textsOf (a ++ b) = textsOf a ++ textsOf b := by
  simp [textsOf]

theorem joinTexts_append (a b : List DrawOp) :
    joinTexts (a ++ b) = joinTexts a ++ joinTexts b := by
  simp [joinTexts, textsOf_append]

theorem joinTexts_nil : joinTexts [] = [] := rfl

theorem joinTexts_text_cons (f : Font) (s x y : Int) (str : List Char)
    (ops : List DrawOp) :
    joinTexts (.text f s x y str :: ops) = str ++ joinTexts ops := by
  simp [joinTexts, textsOf]

/-- The drawn strings of the segment loop concatenate to buffer ++ input. -/
theorem drawSegGo_joinTexts (sw : WidthFn) (tf ef : Font) (fs y : Int) :
    ∀ (cs : List Char) (cursor : Int) (buf : List Char),
      joinTexts (drawSegGo sw tf ef fs y cursor buf cs).1 = buf ++ cs := by
  intro cs
  induction cs with
  | nil =>
    intro cursor buf
    by_cases h : buf = [] <;>
      simp [drawSegGo, h, joinTexts_text_cons, joinTexts_nil]
  | cons ch rest ih =>
    intro cursor buf
    by_cases he : is_emoji ch = true
    · by_cases h : buf = [] <;>
        simp [drawSegGo, he, h, joinTexts_append, joinTexts_text_cons, ih]
    · simp [drawSegGo, he, ih]

/-- Accumulator linearity for the measuring loop. -/
theorem measureGo_shift (sw : WidthFn) (tf ef : Font) (fs : Int) :
    ∀ (cs : List Char) (width : Int) (buf : List Char),
      measureGo sw tf ef fs width buf cs =
        width + measureGo sw tf ef fs 0 buf cs := by
  intro cs
  induction cs with
  | nil =>
    intro width buf
    by_cases h : buf = [] <;> simp [measureGo, h]
  | cons ch rest ih =>
    intro width buf
    by_cases he : is_emoji ch = true
    · by_cases h : buf = []
      · simp only [measureGo, he, h, if_true, ite_true]
        rw [ih]
        conv_rhs => rw [ih]
        omega
      · simp [measureGo, he, h]
        rw [ih]
        conv_rhs => rw [ih]
        omega
    · simp only [measureGo, he]
      simp only [Bool.false_eq_true, if_false, ite_false]
      exact ih width (buf ++ [ch])

/-- The cursor advance of the drawing loop equals the measuring loop. -/
theorem drawSegGo_advance (sw : WidthFn) (tf ef : Font) (fs y : Int) :
    ∀ (cs : List Char) (cursor : Int) (buf : List Char),
      (drawSegGo sw tf ef fs y cursor buf cs).2 =
        cursor + measureGo sw tf ef fs 0 buf cs := by
  intro cs
  induction cs with
  | nil =>
    intro cursor buf
    by_cases h : buf = [] <;> simp [drawSegGo, measureGo, h]
  | cons ch rest ih =>
    intro cursor buf
    by_cases he : is_emoji ch = true
    · by_cases h : buf = []
      · simp only [drawSegGo, measureGo, he, h, if_true, ite_true]
        rw [ih]
        conv_rhs => rw [measureGo_shift]
        omega
      · simp [drawSegGo, measureGo, he, h]
        rw [ih]
        conv_rhs => rw [measureGo_shift]
        omega
    · simp only [drawSegGo, measureGo, he]
      simp only [Bool.false_eq_true, if_false, ite_false]
      exact ih cursor (buf ++ [ch])

/-- C4: the maximal same-script runs produced by the segmentation walk of
`draw_segment_with_emoji` partition the input with no gaps or overlaps:
concatenating the drawn run texts in order reconstructs the input string
exactly, so every character is drawn exactly once. -/
theorem claim_c4_segment_runs_partition (sw : WidthFn) (x y : Int)
    (s : List Char) (tf ef : Font) (fs : Int) :
    joinTexts (draw_segment_with_emoji sw x y s tf ef fs).1 = s := by
  simp [draw_segment_with_emoji, drawSegGo_joinTexts]

/-- C9: `measure_text_width` computes exactly the width advance returned by
`draw_segment_with_emoji` at any canvas position: measurement without
drawing agrees with the drawing pass. -/
theorem claim_c9_measure_eq_draw_advance (sw : WidthFn) (x y : Int)
    (s : List Char) (tf ef : Font) (fs : Int) :
    measure_text_width sw s tf ef fs =
      (draw_segment_with_emoji sw x y s tf ef fs).2 := by
  simp [measure_text_width, draw_segment_with_emoji, drawSegGo_advance]

theorem linkAt_sound {s t u rest : List Char}
    (h : linkAt s = some (t, u, rest)) :
    s = '[' :: (t ++ ']' :: '(' :: (u ++ ')' :: rest)) ∧ t ≠ [] ∧ u ≠ [] := by
  unfold linkAt at h
  split at h
  case _ tl =>
    simp only at h
    split_ifs at h with h1
    split at h
    case _ r2 heq =>
      split_ifs at h with h2
      split at h
      case _ rest2 heq2 =>
        simp only [Option.some.injEq, Prod.mk.injEq] at h
        obtain ⟨ht, hu, hrest⟩ := h
        subst ht hu hrest
        refine ⟨?_, h1, h2⟩
        have e1 := List.takeWhile_append_dropWhile (fun x => x != ']') tl
        have e2 := List.takeWhile_append_dropWhile (fun x => x != ')') r2
        rw [heq] at e1
        rw [heq2] at e2
        rw [← e2] at e1
        exact congrArg (List.cons '[') e1.symm
      case _ => exact absurd h (by simp)
    case _ => exact absurd h (by simp)
  case _ => exact absurd h (by simp)

theorem linkAt_length {s t u rest : List Char}
    (h : linkAt s = some (t, u, rest)) : rest.length + 6 ≤ s.length := by
  obtain ⟨he, ht, hu⟩ := linkAt_sound h
  subst he
  have h1 : 1 ≤ t.length := by
    cases t with
    | nil => exact absurd rfl ht
    | cons a l => simp
  have h2 : 1 ≤ u.length := by
    cases u with
    | nil => exact absurd rfl hu
    | cons a l => simp
  simp
  omega

theorem findLinksGo_reconstruct :
    ∀ (fuel : Nat) (pre s : List Char), s.length ≤ fuel →
      ((findLinksGo fuel pre s).1.map linkSpanText).flatten ++
        (findLinksGo fuel pre s).2 = pre ++ s := by
  intro fuel
  induction fuel with
  | zero =>
    intro pre s hs
    have : s = [] := List.eq_nil_of_length_eq_zero (Nat.le_zero.mp hs)
    subst this
    simp [findLinksGo]
  | succ fuel ih =>
    intro pre s hs
    match s with
    | [] => simp [findLinksGo]
    | c :: rest =>
      simp only [findLinksGo]
      cases hm : linkAt (c :: rest) with
      | some m =>
        obtain ⟨t, u, after⟩ := m
        obtain ⟨he, _, _⟩ := linkAt_sound hm
        have hlen : after.length ≤ fuel := by
          have hl := linkAt_length hm
          simp only [List.length_cons] at hs hl
          omega
        simp only [List.map_cons, List.flatten_cons, linkSpanText]
        have := ih [] after hlen
        rw [List.append_assoc, this, List.nil_append, he]
        simp
      | none =>
        have : rest.length ≤ fuel := by
          simp only [List.length_cons] at hs
          omega
        rw [ih (pre ++ [c]) rest this]
        simp

@[simp] theorem linksOf_nil : linksOf [] = [] := rfl

@[simp] theorem linksOf_cons_text (f : Font) (s x y : Int) (str : List Char)
    (ops : List DrawOp) : linksOf (.text f s x y str :: ops) = linksOf ops := rfl

@[simp] theorem linksOf_cons_rect (x y w h : Int) (ops : List DrawOp) :
    linksOf (.rect x y w h :: ops) = linksOf ops := rfl

@[simp] theorem linksOf_cons_image (x y w h : Int) (src : List Char)
    (ops : List DrawOp) : linksOf (.image x y w h src :: ops) = linksOf ops := rfl

@[simp] theorem linksOf_cons_newPage (ops : List DrawOp) :
    linksOf (.newPage :: ops) = linksOf ops := rfl

@[simp] theorem linksOf_cons_link (u : List Char) (x0 y0 x1 y1 : Int)
    (ops : List DrawOp) :
    linksOf (.linkRect u x0 y0 x1 y1 :: ops) =
      (u, x0, y0, x1, y1) :: linksOf ops := rfl

@[simp] theorem linksOf_append (a b : List DrawOp) :
    linksOf (a ++ b) = linksOf a ++ linksOf b := by
  simp [linksOf]

@[simp] theorem joinTexts_cons_link (u : List Char) (x0 y0 x1 y1 : Int)
    (ops : List DrawOp) :
    joinTexts (.linkRect u x0 y0 x1 y1 :: ops) = joinTexts ops := by
  simp [joinTexts, textsOf]

/-- The segment-drawing loop emits only text operations: no clickable
rectangles. -/
theorem drawSegGo_linksOf (sw : WidthFn) (tf ef : Font) (fs y : Int) :
    ∀ (cs : List Char) (cursor : Int) (buf : List Char),
      linksOf (drawSegGo sw tf ef fs y cursor buf cs).1 = [] := by
  intro cs
  induction cs with
  | nil =>
    intro cursor buf
    by_cases h : buf = [] <;> simp [drawSegGo, h]
  | cons ch rest ih =>
    intro cursor buf
    by_cases he : is_emoji ch = true
    · by_cases h : buf = [] <;> simp [drawSegGo, he, h, ih]
    · simp [drawSegGo, he, ih]

theorem drawSeg_linksOf (sw : WidthFn) (x y : Int) (s : List Char)
    (tf ef : Font) (fs : Int) :
    linksOf (draw_segment_with_emoji sw x y s tf ef fs).1 = [] := by
  simp [draw_segment_with_emoji, drawSegGo_linksOf]

theorem drawSeg_joinTexts (sw : WidthFn) (x y : Int) (s : List Char)
    (tf ef : Font) (fs : Int) :
    joinTexts (draw_segment_with_emoji sw x y s tf ef fs).1 = s := by
  simp [draw_segment_with_emoji, drawSegGo_joinTexts]

theorem drawSeg_advance_eq_measure (sw : WidthFn) (x y : Int) (s : List Char)
    (tf ef : Font) (fs : Int) :
    (draw_segment_with_emoji sw x y s tf ef fs).2 =
      measure_text_width sw s tf ef fs := by
  simp [draw_segment_with_emoji, measure_text_width, drawSegGo_advance]

theorem drawLinksGo_joinTexts (sw : WidthFn) (tf ef : Font) (fs y : Int) :
    ∀ (ms : List (List Char × List Char × List Char)) (cursor : Int),
      joinTexts (drawLinksGo sw tf ef fs y cursor ms).1 =
        (ms.map fun m => m.1 ++ m.2.1).flatten := by
  intro ms
  induction ms with
  | nil => intro cursor; simp [drawLinksGo, joinTexts_nil]
  | cons m ms ih =>
    obtain ⟨pre, title, url⟩ := m
    intro cursor
    by_cases h : pre = [] <;>
      simp [drawLinksGo, h, joinTexts_append, drawSeg_joinTexts, ih]

theorem drawLinksGo_linksOf (sw : WidthFn) (tf ef : Font) (fs y : Int) :
    ∀ (ms : List (List Char × List Char × List Char)) (cursor : Int),
      linksOf (drawLinksGo sw tf ef fs y cursor ms).1 =
        specLinkRects sw tf ef fs y cursor ms := by
  intro ms
  induction ms with
  | nil => intro cursor; simp [drawLinksGo, specLinkRects]
  | cons m ms ih =>
    obtain ⟨pre, title, url⟩ := m
    intro cursor
    by_cases h : pre = [] <;>
      simp [drawLinksGo, specLinkRects, h, drawSeg_linksOf, ih,
        drawSeg_advance_eq_measure, measure_text_width, measureGo]

/-- C3: for every line, link extraction never fails and covers the line
exactly (reconstruction); the drawn glyphs are exactly the plain text with
each `[title](url)` span replaced by its title (so the URL characters are
never drawn); and the registered clickable rectangles are exactly one per
link span, mapped to that span's URL, spanning horizontally from the
x-cursor just before the title's rendered glyphs to just after them. -/
theorem claim_c3_link_rendering (sw : WidthFn) (x y : Int)
    (line : List Char) (tf ef : Font) (fs : Int) :
    ((findLinks line).1.map linkSpanText).flatten ++ (findLinks line).2 = line ∧
    joinTexts (draw_markdown_line_with_links sw x y line tf ef fs) =
      ((findLinks line).1.map (fun m => m.1 ++ m.2.1)).flatten ++
        (findLinks line).2 ∧
    linksOf (draw_markdown_line_with_links sw x y line tf ef fs) =
      specLinkRects sw tf ef fs y x (findLinks line).1 := by
  refine ⟨findLinksGo_reconstruct line.length [] line (Nat.le_refl _), ?_, ?_⟩
  · unfold draw_markdown_line_with_links
    by_cases h : (findLinks line).2 = [] <;>
      simp [h, joinTexts_append, drawLinksGo_joinTexts, drawSeg_joinTexts]
  · unfold draw_markdown_line_with_links
    by_cases h : (findLinks line).2 = [] <;>
      simp [h, drawLinksGo_linksOf, drawSeg_linksOf]

theorem postLoop_bound :
    ∀ (lines : List (List Char)) (chunk : List Char),
      chunk.length ≤ 2000 →
      (∀ l ∈ lines, l.length ≤ 1999) →
      ∀ ch ∈ postLoop chunk lines, ch.length ≤ 2000 := by
  intro lines
  induction lines with
  | nil =>
    intro chunk hc _ ch hch
    by_cases h : chunk = []
    · simp [postLoop, h] at hch
    · simp [postLoop, h] at hch
      simpa [hch] using hc
  | cons line rest ih =>
    intro chunk hc hl ch hch
    have hline : line.length ≤ 1999 := hl line (by simp)
    have hrest : ∀ l ∈ rest, l.length ≤ 1999 := fun l hm => hl l (by simp [hm])
    by_cases h : 2000 < chunk.length + line.length + 1
    · simp only [postLoop, if_pos h, List.mem_cons] at hch
      rcases hch with rfl | hch
      · exact hc
      · exact ih (line ++ ['\n']) (by simp; omega) hrest ch hch
    · simp only [postLoop, if_neg h] at hch
      push_neg at h
      exact ih (chunk ++ line ++ ['\n']) (by simp; omega) hrest ch hch

/-- C10: for nonempty content whose newline-separated lines each have at
most 1999 characters, every message chunk posted by `post_to_discord` has
at most 2000 characters. -/
theorem claim_c10_discord_chunk_bound (content : List Char)
    (hne : content ≠ [])
    (hl : ∀ l ∈ content.splitOn '\n', l.length ≤ 1999) :
    ∀ ch ∈ post_to_discord content, ch.length ≤ 2000 := by
  intro ch hch
  unfold post_to_discord at hch
  rw [if_neg hne] at hch
  by_cases h : content.length ≤ 2000
  · rw [if_pos h] at hch
    simp at hch
    simpa [hch] using h
  · rw [if_neg h] at hch
    exact postLoop_bound (content.splitOn '\n') [] (by simp) hl ch hch

/-- Concrete instance discharging the hypotheses of C10's theorem: the
single posted chunk of the content "ab\ncd" is within the limit. -/
theorem claim_c10_witness :
    (("ab\ncd").toList).length ≤ 2000 :=
  claim_c10_discord_chunk_bound (("ab\ncd").toList) (by decide) (by decide)
    (("ab\ncd").toList) (by decide)

theorem totalLen_nil : totalLen [] = 0 := rfl

theorem totalLen_cons (c : List Char) (l : List (List Char)) :
    totalLen (c :: l) = c.length + totalLen l := by
  simp [totalLen]

theorem totalLen_append (a b : List (List Char)) :
    totalLen (a ++ b) = totalLen a + totalLen b := by
  simp [totalLen]

theorem totalLen_dropLast_le (l : List (List Char)) :
    totalLen l.dropLast ≤ totalLen l := by
  induction l with
  | nil => simp [totalLen]
  | cons c rest ih =>
    cases rest with
    | nil => simp [totalLen]
    | cons d r =>
      rw [List.dropLast_cons₂, totalLen_cons, totalLen_cons]
      omega

theorem totalLen_flatten (l : List (List Char)) :
    l.flatten.length = totalLen l := by
  simp [totalLen]

theorem fillGreedy_bound (width : Nat) :
    ∀ (chunks : List (List Char)) (curLen : Nat), curLen ≤ width →
      curLen + totalLen (fillGreedy width curLen chunks).1 ≤ width := by
  intro chunks
  induction chunks with
  | nil =>
    intro curLen h
    simpa [fillGreedy, totalLen] using h
  | cons c rest ih =>
    intro curLen h
    by_cases hc : curLen + c.length ≤ width
    · have := ih (curLen + c.length) hc
      simp only [fillGreedy, if_pos hc, totalLen_cons]
      omega
    · simpa [fillGreedy, hc, totalLen] using h

theorem rfindIdxGo_lt (p : Char → Bool) :
    ∀ (l : List Char) (j : Nat), rfindIdxGo p l = some j → j < l.length := by
  intro l
  induction l with
  | nil => intro j h; simp [rfindIdxGo] at h
  | cons c rest ih =>
    intro j h
    simp only [rfindIdxGo] at h
    cases hr : rfindIdxGo p rest with
    | some j2 =>
      rw [hr] at h
      simp only [Option.some.injEq] at h
      have := ih j2 hr
      simp only [List.length_cons]
      omega
    | none =>
      rw [hr] at h
      by_cases hp : p c = true
      · simp only [hp, if_true, ite_true, Option.some.injEq] at h
        simp [← h]
      · simp [hp] at h

theorem handleLongWord_piece_le (width curLen : Nat) (chunk : List Char)
    (hw : 1 ≤ width) (hc : curLen ≤ width) :
    curLen + (handleLongWord width curLen chunk).1.length ≤ width := by
  have hbound : ∀ n, n ≤ width - curLen →
      curLen + (chunk.take n).length ≤ width := by
    intro n hn
    rw [List.length_take]
    omega
  unfold handleLongWord
  have hnw : ¬ width < 1 := by omega
  simp only [hnw, ite_false, if_false]
  by_cases hlen : width - curLen < chunk.length
  · simp only [hlen, ite_true, if_true]
    cases hr : rfindHyphen chunk (width - curLen) with
    | none => exact hbound _ (Nat.le_refl _)
    | some hy =>
      have hb : hy < (chunk.take (width - curLen)).length :=
        rfindIdxGo_lt _ _ hy hr
      rw [List.length_take] at hb
      have hb2 : hy < width - curLen :=
        Nat.lt_of_lt_of_le hb (Nat.min_le_left _ _)
      by_cases hcond : (decide (0 < hy) &&
          (chunk.take hy).any (fun c => c != '-')) = true
      · simp only [hcond, if_true, ite_true]
        exact hbound (hy + 1) (by omega)
      · simp only [hcond, if_false, ite_false,
          Bool.not_eq_true] at *
        refine hbound _ (Nat.le_refl _)
  · simp only [hlen, ite_false, if_false]
    exact hbound _ (Nat.le_refl _)

theorem fitLongWord_bound (width : Nat) (hw : 1 ≤ width)
    (fg : List (List Char) × List (List Char))
    (h : totalLen fg.1 ≤ width) :
    totalLen (fitLongWord width fg).1 ≤ width := by
  unfold fitLongWord
  cases hsnd : fg.2 with
  | nil => simpa using h
  | cons c r =>
    by_cases hlong : width < c.length
    · simp only [hlong, ite_true, if_true]
      have := handleLongWord_piece_le width (totalLen fg.1) c hw h
      simp only [totalLen_append, totalLen_cons, totalLen_nil]
      omega
    · simpa [hlong] using h

theorem dropTrailingWs_le (line : List (List Char)) :
    totalLen (dropTrailingWs line) ≤ totalLen line := by
  unfold dropTrailingWs
  cases hl : line.getLast? with
  | none => exact Nat.le_refl _
  | some t =>
    by_cases hs : pyStrip t = []
    · simp only [hs, ite_true, if_true]
      exact totalLen_dropLast_le line
    · simp [hs]

theorem wrapStep_line_bound (width : Nat) (hw : 1 ≤ width)
    (hasLines : Bool) (chunks : List (List Char)) :
    totalLen (wrapStep width hasLines chunks).1 ≤ width := by
  unfold wrapStep
  cases hd : dropLeadingWs hasLines chunks with
  | nil => simp [totalLen]
  | cons c rest =>
    simp only []
    refine Nat.le_trans (dropTrailingWs_le _) ?_
    refine fitLongWord_bound width hw _ ?_
    have := fillGreedy_bound width (c :: rest) 0 (by omega)
    omega

theorem wrapChunksGo_line_bound (width : Nat) (hw : 1 ≤ width) :
    ∀ (fuel : Nat) (hasLines : Bool) (chunks : List (List Char)),
      ∀ l ∈ wrapChunksGo width fuel hasLines chunks, l.length ≤ width := by
  intro fuel
  induction fuel with
  | zero => intro hasLines chunks l hl; simp [wrapChunksGo] at hl
  | succ fuel ih =>
    intro hasLines chunks l hl
    match chunks with
    | [] => simp [wrapChunksGo] at hl
    | c0 :: rest0 =>
      simp only [wrapChunksGo] at hl
      by_cases hempty : (wrapStep width hasLines (c0 :: rest0)).1 = []
      · rw [if_pos hempty] at hl
        exact ih hasLines _ l hl
      · rw [if_neg hempty] at hl
        rcases List.mem_cons.mp hl with rfl | hl2
        · rw [totalLen_flatten]
          exact wrapStep_line_bound width hw hasLines _
        · exact ih true _ l hl2

/-- C1 counterexample: the wrapping step is `textwrap` with
`max_chars_per_line = 55` — it decides line breaks by character count, not
measured glyph width.  With a metrics oracle giving every character width 1,
every whitespace-delimited token of `c1str` measures 1, yet the single
wrapped display line measures 55 > 1, so the claimed bound
`measured width ≤ max_width` for every `max_width ≥ width(longest_token)`
fails at `max_width = 1`. -/
theorem claim_c1_counterexample :
    (∀ tok ∈ splitTokens c1str,
      measure_text_width swCount tok Font.korean Font.emoji 11 ≤ 1) ∧
    ∃ l ∈ pyWrap 55 c1str,
      1 < measure_text_width swCount l Font.korean Font.emoji 11 := by
  decide

/-- C1 amended: the wrapper used by
`generate_weather_news_pdf_from_markdown` bounds the character count of
each display line by `max_chars_per_line = 55` (for any input), not its
measured glyph width. -/
theorem claim_c1_char_count_bound (s : List Char) :
    ∀ l ∈ pyWrap 55 s, l.length ≤ 55 := by
  intro l hl
  exact wrapChunksGo_line_bound 55 (by omega) _ false _ l hl

/-- Concrete instance discharging the hypotheses of C1's amended
theorem. -/
theorem claim_c1_char_count_bound_witness :
    ("hello world").toList ∈ pyWrap 55 (("hello world").toList) ∧
      (("hello world").toList).length ≤ 55 :=
  ⟨by decide, claim_c1_char_count_bound (("hello world").toList) _ (by decide)⟩

theorem map_eq_self_of {f : Char → Char} :
    ∀ (cs : List Char), (∀ c ∈ cs, f c = c) → cs.map f = cs := by
  intro cs
  induction cs with
  | nil => intro _; rfl
  | cons c rest ih =>
    intro h
    simp [h c (by simp), ih (fun x hx => h x (by simp [hx]))]

theorem pyStrip_eq_self {cs : List Char}
    (h : ∀ c ∈ cs, isPySpace c = false) : pyStrip cs = cs := by
  have h1 : cs.dropWhile isPySpace = cs := by
    cases cs with
    | nil => rfl
    | cons a l => simp [List.dropWhile_cons, h a (by simp)]
  have h2 : cs.reverse.dropWhile isPySpace = cs.reverse := by
    cases hr : cs.reverse with
    | nil => rfl
    | cons a l =>
      have ha : a ∈ cs := by
        rw [← List.mem_reverse, hr]; simp
      simp [List.dropWhile_cons, h a ha]
  rw [pyStrip, h1, h2, List.reverse_reverse]

theorem expandtabsGo_eq_self :
    ∀ (cs : List Char), (∀ c ∈ cs, isPySpace c = false) →
      ∀ col, expandtabsGo col cs = cs := by
  intro cs
  induction cs with
  | nil => intro _ col; rfl
  | cons c rest ih =>
    intro h col
    have hc : isPySpace c = false := h c (by simp)
    have ht : ¬ c = '\t' := by
      intro e; rw [e] at hc; simp [isPySpace] at hc
    have hrest : ∀ x ∈ rest, isPySpace x = false :=
      fun x hx => h x (by simp [hx])
    by_cases h2 : (c = '\n' || c = '\r') = true
    · simp [expandtabsGo, ht, h2, ih hrest]
    · simp [expandtabsGo, ht, h2, ih hrest]

theorem munge_eq_self {cs : List Char}
    (h : ∀ c ∈ cs, isPySpace c = false) : munge cs = cs := by
  unfold munge
  rw [expandtabsGo_eq_self cs h 0]
  refine map_eq_self_of cs ?_
  intro c hc
  have h2 := h c hc
  have : (c = '\t' || c = '\n' || c = '\x0b' || c = '\x0c' || c = '\r')
      = false := by
    simp only [isPySpace, Bool.or_eq_false_iff,
      decide_eq_false_iff_not] at h2
    simp [decide_eq_false_iff_not]
    tauto
  simp [this]

theorem tokenScanGo_all :
    ∀ (s : List Char), (∀ c ∈ s, isPySpace c = false ∧ c ≠ '-') →
      ∀ (rev tok : List Char), tokenScanGo rev tok s = (tok ++ s, []) := by
  intro s
  induction s with
  | nil => intro _ rev tok; simp [tokenScanGo]
  | cons c rest ih =>
    intro h rev tok
    obtain ⟨hcs, hcd⟩ := h c (by simp)
    have hrest : ∀ x ∈ rest, isPySpace x = false ∧ x ≠ '-' :=
      fun x hx => h x (by simp [hx])
    have hbreak : hyphBreakAt rev (c :: rest) = false := by
      simp [hyphBreakAt, hcd]
    have hem : emDashAhead rev (c :: rest) = false := by
      simp [emDashAhead, hyphenRun, hcd]
    simp only [tokenScanGo, hbreak, hcs, hem, if_false, ite_false,
      Bool.false_eq_true]
    rw [ih hrest]
    simp

theorem splitGo_nil (fuel : Nat) (rev : List Char) :
    splitGo fuel rev [] = [] := by
  cases fuel <;> rfl

theorem splitGo_single :
    ∀ (cs : List Char), cs ≠ [] →
      (∀ c ∈ cs, isPySpace c = false ∧ c ≠ '-') →
      ∀ (fuel : Nat), 1 ≤ fuel → ∀ (rev : List Char),
        splitGo fuel rev cs = [cs] := by
  intro cs hne h fuel hfuel rev
  match fuel, cs with
  | f + 1, c :: rest =>
    obtain ⟨hcs, hcd⟩ := h c (by simp)
    have hrest : ∀ x ∈ rest, isPySpace x = false ∧ x ≠ '-' :=
      fun x hx => h x (by simp [hx])
    have hem : emDashChunk rev (c :: rest) = none := by
      unfold emDashChunk
      cases rev with
      | nil => rfl
      | cons p pr =>
        by_cases hp : isWordPunct p = true
        · have hz : hyphenRun (c :: rest) = 0 := by simp [hyphenRun, hcd]
          simp [hp, hz]
        · simp [hp]
    simp only [splitGo, hcs, Bool.false_eq_true, if_false, ite_false, hem]
    rw [tokenScanGo_all rest hrest]
    simp [splitGo_nil]

theorem splitChunks_single (cs : List Char) (hne : cs ≠ [])
    (h : ∀ c ∈ cs, isPySpace c = false ∧ c ≠ '-') :
    splitChunks cs = [cs] := by
  unfold splitChunks
  refine splitGo_single cs hne h cs.length ?_ []
  cases cs with
  | nil => exact absurd rfl hne
  | cons a l => simp

theorem rfindIdxGo_none {p : Char → Bool} :
    ∀ (l : List Char), (∀ c ∈ l, p c = false) → rfindIdxGo p l = none := by
  intro l
  induction l with
  | nil => intro _; rfl
  | cons c rest ih =>
    intro h
    simp [rfindIdxGo, ih (fun x hx => h x (by simp [hx])), h c (by simp)]

theorem wrapStep_single_small (hasLines : Bool) {cs : List Char}
    (hne : cs ≠ []) (hns : ∀ c ∈ cs, isPySpace c = false)
    (hlen : cs.length ≤ 55) :
    wrapStep 55 hasLines [cs] = ([cs], []) := by
  have hstrip : pyStrip cs = cs := pyStrip_eq_self hns
  have hdrop : dropLeadingWs hasLines [cs] = [cs] := by
    simp [dropLeadingWs, hstrip, hne]
  have hfill : fillGreedy 55 0 [cs] = ([cs], []) := by
    simp [fillGreedy, hlen]
  unfold wrapStep
  rw [hdrop]
  simp only [hfill]
  simp [fitLongWord, dropTrailingWs, hstrip, hne]

theorem wrapStep_single_big (hasLines : Bool) {cs : List Char}
    (hns : ∀ c ∈ cs, isPySpace c = false)
    (hnh : ∀ c ∈ cs, c ≠ '-') (hlen : 55 < cs.length) :
    wrapStep 55 hasLines [cs] = ([cs.take 55], [cs.drop 55]) := by
  have hne : cs ≠ [] := by
    intro e; rw [e] at hlen; simp at hlen
  have hstrip : pyStrip cs = cs := pyStrip_eq_self hns
  have hdrop : dropLeadingWs hasLines [cs] = [cs] := by
    simp [dropLeadingWs, hstrip, hne]
  have hfill : fillGreedy 55 0 [cs] = ([], [cs]) := by
    have hgt : ¬ (cs.length ≤ 55) := by omega
    simp [fillGreedy, hgt]
  have hlong : handleLongWord 55 0 cs = (cs.take 55, cs.drop 55) := by
    unfold handleLongWord
    have hr : rfindHyphen cs 55 = none := by
      unfold rfindHyphen
      refine rfindIdxGo_none _ ?_
      intro c hc
      have := hnh c (List.take_subset 55 cs hc)
      simp [this]
    simp [hr, hlen]
  have htake : pyStrip (cs.take 55) = cs.take 55 :=
    pyStrip_eq_self (fun c hc => hns c (List.take_subset 55 cs hc))
  have htakene : cs.take 55 ≠ [] := by
    have h1 : (cs.take 55).length = min 55 cs.length := by simp
    intro e
    rw [e] at h1
    simp only [List.length_nil] at h1
    omega
  unfold wrapStep
  rw [hdrop]
  simp only [hfill]
  simp [fitLongWord, totalLen_nil, hlong, dropTrailingWs, htake, htakene,
    (by omega : 55 < cs.length)]

theorem wrapChunksGo_nil (width fuel : Nat) (hasLines : Bool) :
    wrapChunksGo width fuel hasLines [] = [] := by
  cases fuel <;> rfl

theorem wrapSingle_flatten :
    ∀ (fuel : Nat) (cs : List Char) (hasLines : Bool), cs ≠ [] →
      (∀ c ∈ cs, isPySpace c = false ∧ c ≠ '-') →
      cs.length ≤ fuel →
      (wrapChunksGo 55 fuel hasLines [cs]).flatten = cs := by
  intro fuel
  induction fuel with
  | zero =>
    intro cs hasLines hne h hlen
    cases cs with
    | nil => exact absurd rfl hne
    | cons a l => simp at hlen
  | succ fuel ih =>
    intro cs hasLines hne h hlen
    by_cases hb : cs.length ≤ 55
    · simp only [wrapChunksGo]
      rw [wrapStep_single_small hasLines hne (fun c hc => (h c hc).1) hb]
      simp [hne, wrapChunksGo_nil]
    · push_neg at hb
      simp only [wrapChunksGo]
      rw [wrapStep_single_big hasLines (fun c hc => (h c hc).1)
        (fun c hc => (h c hc).2) hb]
      have hdne : cs.drop 55 ≠ [] := by
        have h1 : (cs.drop 55).length = cs.length - 55 := by simp
        intro e
        rw [e] at h1
        simp only [List.length_nil] at h1
        omega
      have hdprop : ∀ c ∈ cs.drop 55, isPySpace c = false ∧ c ≠ '-' :=
        fun c hc => h c (List.drop_subset 55 cs hc)
      have hdlen : (cs.drop 55).length ≤ fuel := by
        have hld : (cs.drop 55).length = cs.length - 55 := by simp
        omega
      have hrec := ih (cs.drop 55) true hdne hdprop hdlen
      have htne : cs.take 55 ≠ [] := by
        have h1 : (cs.take 55).length = min 55 cs.length := by simp
        intro e
        rw [e] at h1
        simp only [List.length_nil] at h1
        omega
      simp only [htne, ite_false, if_false]
      simp [hrec, List.take_append_drop]

/-- C5 amended: a single whitespace-free (and hyphen-free, so the
hyphenation rule is inapplicable) token longer than the 55-character column
is not placed alone on its own display line: `break_long_words` splits it
mid-token into pieces that each fit the width and concatenate back to the
token. -/
theorem claim_c5_oversized_token_split (cs : List Char)
    (h : ∀ c ∈ cs, isPySpace c = false ∧ c ≠ '-')
    (hbig : 55 < cs.length) :
    cs ∉ pyWrap 55 cs ∧ (pyWrap 55 cs).flatten = cs ∧
      ∀ l ∈ pyWrap 55 cs, l.length ≤ 55 := by
  have hns : ∀ c ∈ cs, isPySpace c = false := fun c hc => (h c hc).1
  have hne : cs ≠ [] := by
    intro e; rw [e] at hbig; simp at hbig
  have hchunks : splitChunks (munge cs) = [cs] := by
    rw [munge_eq_self hns]
    exact splitChunks_single cs hne h
  have hflat : (pyWrap 55 cs).flatten = cs := by
    unfold pyWrap
    rw [hchunks]
    refine wrapSingle_flatten (totalLen [cs] + 1) cs false hne h ?_
    simp [totalLen]
  have hbound : ∀ l ∈ pyWrap 55 cs, l.length ≤ 55 := by
    intro l hl
    exact wrapChunksGo_line_bound 55 (by omega) _ false _ l hl
  refine ⟨?_, hflat, hbound⟩
  intro hmem
  have := hbound cs hmem
  omega

/-- Concrete instance discharging the hypotheses of C5's amended
theorem. -/
theorem claim_c5_oversized_token_split_witness :
    (List.replicate 60 'a' ∉ pyWrap 55 (List.replicate 60 'a')) ∧
      (pyWrap 55 (List.replicate 60 'a')).flatten = List.replicate 60 'a' ∧
      ∀ l ∈ pyWrap 55 (List.replicate 60 'a'), l.length ≤ 55 :=
  claim_c5_oversized_token_split (List.replicate 60 'a')
    (by decide) (by decide)

/-- C5 counterexample: a 60-character token is split by the wrapper into a
55-character piece and a 5-character piece — it is not placed alone on its
own display line, contradicting the claim that an oversized token is never
split mid-token. -/
theorem claim_c5_counterexample :
    pyWrap 55 (List.replicate 60 'a') =
      [List.replicate 55 'a', List.replicate 5 'a'] ∧
    List.replicate 60 'a' ∉ pyWrap 55 (List.replicate 60 'a') := by
  decide

theorem boldCloseScan_sound :
    ∀ (t content r : List Char), boldCloseScan t = some (content, r) →
      t = content ++ '*' :: '*' :: r := by
  intro t
  induction t with
  | nil => intro content r h; simp [boldCloseScan] at h
  | cons c rest ih =>
    intro content r h
    cases rest with
    | nil => simp [boldCloseScan] at h
    | cons a rest2 =>
      cases rest2 with
      | nil => simp [boldCloseScan] at h
      | cons b r2 =>
        by_cases hab : a = '*' ∧ b = '*'
        · rw [boldCloseScan, if_pos hab] at h
          simp only [Option.some.injEq, Prod.mk.injEq] at h
          obtain ⟨h1, h2⟩ := h
          subst h1 h2
          simp [hab.1, hab.2]
        · rw [boldCloseScan, if_neg hab] at h
          cases hs : boldCloseScan (a :: b :: r2) with
          | none => rw [hs] at h; simp at h
          | some m =>
            obtain ⟨content2, r3⟩ := m
            rw [hs] at h
            simp only [Option.some.injEq, Prod.mk.injEq] at h
            obtain ⟨h1, h2⟩ := h
            subst h1 h2
            have h4 := ih content2 _ hs
            simp [h4]

theorem boldAt_sound {s content after : List Char}
    (h : boldAt s = some (content, after)) :
    s = '*' :: '*' :: (content ++ '*' :: '*' :: after) := by
  cases s with
  | nil => simp [boldAt] at h
  | cons a t0 =>
    cases t0 with
    | nil => simp [boldAt] at h
    | cons b t =>
      by_cases hab : a = '*' ∧ b = '*'
      · rw [boldAt, if_pos hab] at h
        have := boldCloseScan_sound t content after h
        simp [hab.1, hab.2, this]
      · rw [boldAt, if_neg hab] at h
        simp at h

theorem boldSearch_sound :
    ∀ (s pre content after : List Char),
      boldSearch s = some (pre, content, after) →
      s = pre ++ ('*' :: '*' :: (content ++ '*' :: '*' :: after)) := by
  intro s
  induction s with
  | nil => intro pre c a h; simp [boldSearch] at h
  | cons c rest ih =>
    intro pre content after h
    rw [boldSearch] at h
    cases hb : boldAt (c :: rest) with
    | some m =>
      obtain ⟨cnt, aft⟩ := m
      rw [hb] at h
      simp only [Option.some.injEq, Prod.mk.injEq] at h
      obtain ⟨h1, h2, h3⟩ := h
      subst h1 h2 h3
      simpa using boldAt_sound hb
    | none =>
      rw [hb] at h
      cases hs : boldSearch rest with
      | some m2 =>
        obtain ⟨p2, c2, a2⟩ := m2
        rw [hs] at h
        simp only [Option.some.injEq, Prod.mk.injEq] at h
        obtain ⟨h1, h2, h3⟩ := h
        subst h1 h2 h3
        have h4 := ih p2 _ _ hs
        simp [h4]
      | none => rw [hs] at h; simp at h

theorem containsSub_of_parts (a b pat : List Char) :
    containsSub (a ++ (pat ++ b)) pat = true := by
  unfold containsSub
  rw [List.any_eq_true]
  refine ⟨pat ++ b, ?_, ?_⟩
  · rw [List.mem_tails]
    exact (List.suffix_append a (pat ++ b))
  · rw [ List.isPrefixOf_iff_prefix]
    exact List.prefix_append pat b

theorem containsSub_star_of_boldSearch {line : List Char}
    {m : List Char × List Char × List Char}
    (h : boldSearch line = some m) : containsSub line ['*', '*'] = true := by
  obtain ⟨pre, content, after⟩ := m
  have hs := boldSearch_sound line pre content after h
  rw [hs]
  exact containsSub_of_parts pre (content ++ '*' :: '*' :: after) ['*', '*']

/-- C6 amended: a line that is not blank/rule and not the sources header,
contains an emphasis pair `**…**`, and whose marker-stripped label is
nonempty, is classified and rendered as a whole-line boxed headline (the
bullet branch is never reached for it).  A pair whose stripped label is
empty (e.g. `"** **"`) instead falls through to the bullet/paragraph
branches. -/
theorem claim_c6_bold_line_is_headline (env : RenderEnv) (st : RState)
    (line : List Char) (hr : rstripNl line = line)
    (hb : isBlankLine line = false)
    (hsrc : isSourcesHeader line = false)
    (hpair : boldSearch line ≠ none)
    (hlabel : (headlineText line).isEmpty = false) :
    (renderLine env st line).2.2 = .headline := by
  have hstar : containsSub line ['*', '*'] = true := by
    cases hm : boldSearch line with
    | none => exact absurd hm hpair
    | some m => exact containsSub_star_of_boldSearch hm
  have hhl : isHeadlineLine line = true := by
    simp [isHeadlineLine, hstar, hlabel]
  unfold renderLine
  rw [hr]
  simp [hb, hsrc, hhl]

/-- Concrete instance discharging the hypotheses of C6's amended theorem:
a bulleted line with a bold span renders as a headline, not a bullet. -/
theorem claim_c6_bold_line_is_headline_witness :
    (renderLine cexEnv initState (("- **T** x").toList)).2.2 = .headline :=
  claim_c6_bold_line_is_headline cexEnv initState (("- **T** x").toList)
    (by decide) (by decide) (by decide) (by decide) (by decide)

/-- C6 counterexample: `"** **"` contains an emphasis pair (the regex
matches, with content `" "`), yet the renderer draws it as a plain
paragraph — the headline branch is skipped because the stripped label is
empty. -/
theorem claim_c6_counterexample :
    boldSearch (("** **").toList) ≠ none ∧
    (renderLine cexEnv initState (("** **").toList)).2.2 = .para := by
  decide

theorem isSourcesHeader_of_blank {line : List Char}
    (h : isBlankLine line = true) : isSourcesHeader line = false := by
  unfold isBlankLine at h
  simp only [Bool.or_eq_true, decide_eq_true_eq] at h
  unfold isSourcesHeader
  rcases h with h1 | h1 <;> rw [h1] <;> rfl

theorem renderLine_flag (env : RenderEnv) (st : RState) (line : List Char) :
    (renderLine env st line).1.inSources =
      (st.inSources || isSourcesHeader (rstripNl line)) := by
  unfold renderLine
  by_cases h1 : isBlankLine (rstripNl line) = true
  · simp [h1, isSourcesHeader_of_blank h1]
  · by_cases h2 : isSourcesHeader (rstripNl line) = true
    · simp [h1, h2]
    · by_cases h3 : isHeadlineLine (rstripNl line) = true
      · simp [h1, h2, h3]
      · cases hbm : bulletMatch (rstripNl line) with
        | some text =>
          by_cases h4 : (findLinks text).1 ≠ []
          · by_cases h5 : st.inSources = true <;>
              simp [h1, h2, h3, hbm, h4, h5]
          · simp [h1, h2, h3, hbm, h4]
        | none => simp [h1, h2, h3, hbm]

theorem renderLines_flag (env : RenderEnv) :
    ∀ (lines : List (List Char)) (st : RState),
      (renderLines env lines st).1.inSources =
        (st.inSources ||
          lines.any (fun l => isSourcesHeader (rstripNl l))) := by
  intro lines
  induction lines with
  | nil => intro st; simp [renderLines]
  | cons l rest ih =>
    intro st
    simp only [renderLines]
    rw [ih, renderLine_flag]
    simp [Bool.or_assoc]

theorem renderLine_branch_flag (env : RenderEnv) (st : RState)
    (line : List Char) (b : Bool)
    (h : (renderLine env st line).2.2 = .bulletLink b) :
    b = st.inSources := by
  unfold renderLine at h
  by_cases h1 : isBlankLine (rstripNl line) = true
  · simp [h1] at h
  · by_cases h2 : isSourcesHeader (rstripNl line) = true
    · simp [h1, h2] at h
    · by_cases h3 : isHeadlineLine (rstripNl line) = true
      · simp [h1, h2, h3] at h
      · cases hbm : bulletMatch (rstripNl line) with
        | some text =>
          by_cases h4 : (findLinks text).1 ≠ []
          · by_cases h5 : st.inSources = true
            · simp [h1, h2, h3, hbm, h4, h5] at h
              simp [← h, h5]
            · simp [h1, h2, h3, hbm, h4, h5] at h
              simp only [Bool.not_eq_true] at h5
              simp [← h, h5]
          · simp [h1, h2, h3, hbm, h4] at h
        | none => simp [h1, h2, h3, hbm] at h

/-- C7: the in-sources-section flag starts false, is set exactly by a line
matching the sources header, stays true once set (so over the whole pass it
is true exactly after some earlier line was the sources header), and a
bulleted link line takes the thumbnail sub-branch exactly when the flag is
set at its turn. -/
theorem claim_c7_sources_flag_monotone (env : RenderEnv) :
    initState.inSources = false ∧
    (∀ st line, (renderLine env st line).1.inSources =
      (st.inSources || isSourcesHeader (rstripNl line))) ∧
    (∀ lines st, (renderLines env lines st).1.inSources =
      (st.inSources || lines.any (fun l => isSourcesHeader (rstripNl l)))) ∧
    (∀ st line b, (renderLine env st line).2.2 = .bulletLink b →
      b = st.inSources) :=
  ⟨rfl, renderLine_flag env, renderLines_flag env,
   renderLine_branch_flag env⟩

/-- Concrete instance of C7's theorem: processing the sources-header line
turns the flag on. -/
theorem claim_c7_sources_flag_monotone_witness :
    (renderLines cexEnv [("**📚 Real Sources:**").toList] initState).1.inSources
      = (initState.inSources ||
        ([("**📚 Real Sources:**").toList]).any
          (fun l => isSourcesHeader (rstripNl l))) :=
  (claim_c7_sources_flag_monotone cexEnv).2.2.1
    [("**📚 Real Sources:**").toList] initState

@[simp] theorem imagesOf_nil : imagesOf [] = [] := rfl

@[simp] theorem imagesOf_cons_text (f : Font) (s x y : Int) (str : List Char)
    (ops : List DrawOp) :
    imagesOf (.text f s x y str :: ops) = imagesOf ops := rfl

@[simp] theorem imagesOf_cons_rect (x y w h : Int) (ops : List DrawOp) :
    imagesOf (.rect x y w h :: ops) = imagesOf ops := rfl

@[simp] theorem imagesOf_cons_link (u : List Char) (x0 y0 x1 y1 : Int)
    (ops : List DrawOp) :
    imagesOf (.linkRect u x0 y0 x1 y1 :: ops) = imagesOf ops := rfl

@[simp] theorem imagesOf_cons_newPage (ops : List DrawOp) :
    imagesOf (.newPage :: ops) = imagesOf ops := rfl

@[simp] theorem imagesOf_cons_image (x y w h : Int) (src : List Char)
    (ops : List DrawOp) :
    imagesOf (.image x y w h src :: ops) =
      .image x y w h src :: imagesOf ops := rfl

@[simp] theorem imagesOf_append (a b : List DrawOp) :
    imagesOf (a ++ b) = imagesOf a ++ imagesOf b := by
  simp [imagesOf]

theorem drawSegGo_imagesOf (sw : WidthFn) (tf ef : Font) (fs y : Int) :
    ∀ (cs : List Char) (cursor : Int) (buf : List Char),
      imagesOf (drawSegGo sw tf ef fs y cursor buf cs).1 = [] := by
  intro cs
  induction cs with
  | nil =>
    intro cursor buf
    by_cases h : buf = [] <;> simp [drawSegGo, h]
  | cons ch rest ih =>
    intro cursor buf
    by_cases he : is_emoji ch = true
    · by_cases h : buf = [] <;> simp [drawSegGo, he, h, ih]
    · simp [drawSegGo, he, ih]

theorem drawSeg_imagesOf (sw : WidthFn) (x y : Int) (s : List Char)
    (tf ef : Font) (fs : Int) :
    imagesOf (draw_segment_with_emoji sw x y s tf ef fs).1 = [] := by
  simp [draw_segment_with_emoji, drawSegGo_imagesOf]

theorem drawLinksGo_imagesOf (sw : WidthFn) (tf ef : Font) (fs y : Int) :
    ∀ (ms : List (List Char × List Char × List Char)) (cursor : Int),
      imagesOf (drawLinksGo sw tf ef fs y cursor ms).1 = [] := by
  intro ms
  induction ms with
  | nil => intro cursor; simp [drawLinksGo]
  | cons m ms ih =>
    obtain ⟨pre, title, url⟩ := m
    intro cursor
    by_cases h : pre = [] <;>
      simp [drawLinksGo, h, drawSeg_imagesOf, ih]

theorem drawMarkdown_imagesOf (sw : WidthFn) (x y : Int) (line : List Char)
    (tf ef : Font) (fs : Int) :
    imagesOf (draw_markdown_line_with_links sw x y line tf ef fs) = [] := by
  unfold draw_markdown_line_with_links
  by_cases h : (findLinks line).2 = [] <;>
    simp [h, drawLinksGo_imagesOf, drawSeg_imagesOf]

theorem drawMarkdown_linksOf (sw : WidthFn) (x y : Int) (line : List Char)
    (tf ef : Font) (fs : Int) :
    linksOf (draw_markdown_line_with_links sw x y line tf ef fs) =
      specLinkRects sw tf ef fs y x (findLinks line).1 := by
  unfold draw_markdown_line_with_links
  by_cases h : (findLinks line).2 = [] <;>
    simp [h, drawLinksGo_linksOf, drawSeg_linksOf]

theorem specLinkRects_urls (sw : WidthFn) (tf ef : Font) (fs y : Int) :
    ∀ (ms : List (List Char × List Char × List Char)) (cursor : Int),
      (specLinkRects sw tf ef fs y cursor ms).map (fun l => l.1) =
        ms.map (fun m => m.2.2) := by
  intro ms
  induction ms with
  | nil => intro cursor; simp [specLinkRects]
  | cons m ms ih =>
    obtain ⟨pre, title, url⟩ := m
    intro cursor
    simp [specLinkRects, ih]

/-- C8 amended: for a bulleted link line in the sources section (drawn with
room on the page), when the thumbnail resolver returns no URL the bullet is
drawn with exactly one clickable rectangle mapped to the link's URL, no
image is drawn, and the cursor advances by exactly one line height; when
the resolver returns a URL, the cursor advances by line height + thumbnail
size + a 10 pt gap regardless of whether the image download succeeds — in
particular a failed download draws no image but still advances by the
larger amount. -/
theorem claim_c8_bullet_link_advance (env : RenderEnv) (st : RState)
    (line text u : List Char)
    (hr : rstripNl line = line)
    (hb : isBlankLine line = false)
    (hsrc : isSourcesHeader line = false)
    (hhl : isHeadlineLine line = false)
    (hbm : bulletMatch line = some text)
    (hin : st.inSources = true)
    (hy : margin_bottom ≤ st.y)
    (hurl : (findLinks text).1.map (fun m => m.2.2) = [u])
    (hdrawn : (findLinks (bulletMark ++ text)).1.map (fun m => m.2.2) = [u]) :
    (env.getThumb u = none →
      ((linksOf (renderLine env st line).2.1).map (fun l => l.1) = [u] ∧
       imagesOf (renderLine env st line).2.1 = [] ∧
       (renderLine env st line).1.y = st.y - line_height)) ∧
    (∀ tu, env.getThumb u = some tu → tu ≠ [] →
      ((renderLine env st line).1.y =
         st.y - (line_height + thumb_size + 10 * pt) ∧
       (env.fetchImage tu = none →
         imagesOf (renderLine env st line).2.1 = []))) := by
  obtain ⟨m1, ms, hfl, hms⟩ :
      ∃ m1 ms, (findLinks text).1 = m1 :: ms ∧ m1.2.2 = u ∧ ms = [] := by
    cases hf : (findLinks text).1 with
    | nil => rw [hf] at hurl; simp at hurl
    | cons m1 ms =>
      cases ms with
      | nil =>
        rw [hf] at hurl
        simp at hurl
        exact ⟨m1, [], rfl, hurl, rfl⟩
      | cons m2 ms2 => rw [hf] at hurl; simp at hurl
  obtain ⟨hmu, hmsnil⟩ := hms
  subst hmsnil
  have hne : (findLinks text).1 ≠ [] := by rw [hfl]; simp
  have hnotlow : ¬ st.y < margin_bottom := by omega
  obtain ⟨p1, t1, u1⟩ := m1
  have hu1 : u1 = u := hmu
  subst hu1
  unfold renderLine
  rw [hr]
  simp only [hb, hsrc, hhl, hbm, Bool.false_eq_true, if_false, ite_false,
    hnotlow, hin, if_true, ite_true, hfl, ne_eq, List.cons_ne_nil,
    not_false_eq_true]
  constructor
  · intro hthumb
    simp only [hthumb, Bool.false_eq_true, if_false, ite_false,
      List.nil_append]
    refine ⟨?_, ?_, ?_⟩
    · rw [drawMarkdown_linksOf, specLinkRects_urls]
      exact hdrawn
    · simp [drawMarkdown_imagesOf]
    · trivial
  · intro tu hthumb htune
    simp only [hthumb]
    have hemp : tu.isEmpty = false := by
      cases tu with
      | nil => exact absurd rfl htune
      | cons a l => rfl
    simp only [hemp, Bool.not_false, if_true, ite_true, Bool.false_eq_true,
      if_false, ite_false]
    refine ⟨?_, ?_⟩
    · trivial
    · intro hfetch
      unfold draw_thumbnail_from_url
      simp [htune, hfetch, drawMarkdown_imagesOf]

/-- Concrete instance discharging the hypotheses of C8's amended theorem
(thumbnail resolver returning none). -/
theorem claim_c8_bullet_link_advance_witness :
    (({ cexEnv with getThumb := fun _ => none } : RenderEnv).getThumb
        (("b").toList) = none →
      ((linksOf (renderLine { cexEnv with getThumb := fun _ => none }
          { y := 100000, inSources := true }
          (("- [a](b)").toList)).2.1).map (fun l => l.1) = [("b").toList] ∧
       imagesOf (renderLine { cexEnv with getThumb := fun _ => none }
          { y := 100000, inSources := true }
          (("- [a](b)").toList)).2.1 = [] ∧
       (renderLine { cexEnv with getThumb := fun _ => none }
          { y := 100000, inSources := true }
          (("- [a](b)").toList)).1.y = (100000 : Int) - line_height)) ∧
    (∀ tu, ({ cexEnv with getThumb := fun _ => none } : RenderEnv).getThumb
          (("b").toList) = some tu → tu ≠ [] →
      (((renderLine { cexEnv with getThumb := fun _ => none }
          { y := 100000, inSources := true }
          (("- [a](b)").toList)).1.y =
         (100000 : Int) - (line_height + thumb_size + 10 * pt) ∧
       (({ cexEnv with getThumb := fun _ => none } : RenderEnv).fetchImage tu
            = none →
         imagesOf (renderLine { cexEnv with getThumb := fun _ => none }
          { y := 100000, inSources := true }
          (("- [a](b)").toList)).2.1 = [])))) :=
  claim_c8_bullet_link_advance { cexEnv with getThumb := fun _ => none }
    { y := 100000, inSources := true } (("- [a](b)").toList)
    (("[a](b)").toList) (("b").toList)
    (by decide) (by decide) (by decide) (by decide) (by decide) (by decide)
    (by decide) (by decide) (by decide)

/-- C8 counterexample: with the resolver returning a URL but the image
download failing, no image is drawn yet the cursor advances by
line height + thumbnail size + gap — not by exactly one line height as the
claim states for "any fetch step fails". -/
theorem claim_c8_counterexample :
    imagesOf (renderLine { cexEnv with fetchImage := fun _ => none }
      { y := 100000, inSources := true } (("- [a](b)").toList)).2.1 = [] ∧
    (renderLine { cexEnv with fetchImage := fun _ => none }
      { y := 100000, inSources := true } (("- [a](b)").toList)).1.y =
      (100000 : Int) - (line_height + thumb_size + 10 * pt) ∧
    (renderLine { cexEnv with fetchImage := fun _ => none }
      { y := 100000, inSources := true } (("- [a](b)").toList)).1.y ≠
      (100000 : Int) - line_height := by
  decide

@[simp] theorem pageBreaks_nil : pageBreaks [] = 0 := rfl

@[simp] theorem pageBreaks_append (a b : List DrawOp) :
    pageBreaks (a ++ b) = pageBreaks a + pageBreaks b := by
  simp [pageBreaks]

@[simp] theorem pageBreaks_cons_text (f : Font) (s x y : Int)
    (str : List Char) (ops : List DrawOp) :
    pageBreaks (.text f s x y str :: ops) = pageBreaks ops := rfl

@[simp] theorem pageBreaks_cons_rect (x y w h : Int) (ops : List DrawOp) :
    pageBreaks (.rect x y w h :: ops) = pageBreaks ops := rfl

@[simp] theorem pageBreaks_cons_image (x y w h : Int) (src : List Char)
    (ops : List DrawOp) :
    pageBreaks (.image x y w h src :: ops) = pageBreaks ops := rfl

@[simp] theorem pageBreaks_cons_link (u : List Char) (x0 y0 x1 y1 : Int)
    (ops : List DrawOp) :
    pageBreaks (.linkRect u x0 y0 x1 y1 :: ops) = pageBreaks ops := rfl

@[simp] theorem pageBreaks_cons_newPage (ops : List DrawOp) :
    pageBreaks (.newPage :: ops) = pageBreaks ops + 1 := by
  simp [pageBreaks, isNewPage]

@[simp] theorem opGuarded_image (x y w h : Int) (src : List Char) :
    opGuarded (.image x y w h src) = true := rfl

@[simp] theorem opGuarded_link (u : List Char) (x0 y0 x1 y1 : Int) :
    opGuarded (.linkRect u x0 y0 x1 y1) = true := rfl

@[simp] theorem opGuarded_newPage : opGuarded .newPage = true := rfl

theorem opGuarded_text (y : Int) (hy : margin_bottom ≤ y) (f : Font)
    (s x : Int) (str : List Char) :
    opGuarded (.text f s x y str) = true := by
  simp [opGuarded, hy]

theorem opGuarded_rect (y : Int) (hy : margin_bottom ≤ y) (x w h : Int) :
    opGuarded (.rect x y w h) = true := by
  simp [opGuarded, hy]

theorem drawSegGo_guarded (sw : WidthFn) (tf ef : Font) (fs y : Int)
    (hy : margin_bottom ≤ y) :
    ∀ (cs : List Char) (cursor : Int) (buf : List Char),
      ∀ op ∈ (drawSegGo sw tf ef fs y cursor buf cs).1,
        opGuarded op = true := by
  intro cs
  induction cs with
  | nil =>
    intro cursor buf
    by_cases h : buf = [] <;> simp [drawSegGo, h, opGuarded_text y hy]
  | cons ch rest ih =>
    intro cursor buf
    by_cases he : is_emoji ch = true
    · by_cases h : buf = [] <;>
        · simp [drawSegGo, he, h, opGuarded_text y hy]
          exact fun a ha => ih _ _ a ha
    · simp only [drawSegGo, he, Bool.false_eq_true, if_false, ite_false]
      exact fun a ha => ih _ _ a ha

theorem drawSegGo_pageBreaks (sw : WidthFn) (tf ef : Font) (fs y : Int) :
    ∀ (cs : List Char) (cursor : Int) (buf : List Char),
      pageBreaks (drawSegGo sw tf ef fs y cursor buf cs).1 = 0 := by
  intro cs
  induction cs with
  | nil =>
    intro cursor buf
    by_cases h : buf = [] <;> simp [drawSegGo, h]
  | cons ch rest ih =>
    intro cursor buf
    by_cases he : is_emoji ch = true
    · by_cases h : buf = [] <;> simp [drawSegGo, he, h, ih]
    · simp [drawSegGo, he, ih]

theorem drawSeg_guarded (sw : WidthFn) (x y : Int) (s : List Char)
    (tf ef : Font) (fs : Int) (hy : margin_bottom ≤ y) :
    ∀ op ∈ (draw_segment_with_emoji sw x y s tf ef fs).1,
      opGuarded op = true := by
  simp only [draw_segment_with_emoji]
  exact drawSegGo_guarded sw tf ef fs y hy s x []

theorem drawSeg_pageBreaks (sw : WidthFn) (x y : Int) (s : List Char)
    (tf ef : Font) (fs : Int) :
    pageBreaks (draw_segment_with_emoji sw x y s tf ef fs).1 = 0 := by
  simp [draw_segment_with_emoji, drawSegGo_pageBreaks]

theorem drawLinksGo_guarded (sw : WidthFn) (tf ef : Font) (fs y : Int)
    (hy : margin_bottom ≤ y) :
    ∀ (ms : List (List Char × List Char × List Char)) (cursor : Int),
      ∀ op ∈ (drawLinksGo sw tf ef fs y cursor ms).1,
        opGuarded op = true := by
  intro ms
  induction ms with
  | nil => intro cursor; simp [drawLinksGo]
  | cons m ms ih =>
    obtain ⟨pre, title, url⟩ := m
    intro cursor op hop
    by_cases h : pre = []
    · simp [drawLinksGo, h] at hop
      rcases hop with hop | hop | hop
      · exact drawSeg_guarded sw _ y _ _ _ _ hy op hop
      · rw [hop]; rfl
      · exact ih _ op hop
    · simp [drawLinksGo, h] at hop
      rcases hop with hop | hop | hop | hop
      · exact drawSeg_guarded sw _ y _ _ _ _ hy op hop
      · exact drawSeg_guarded sw _ y _ _ _ _ hy op hop
      · rw [hop]; rfl
      · exact ih _ op hop

theorem drawMarkdown_guarded (sw : WidthFn) (x y : Int) (line : List Char)
    (tf ef : Font) (fs : Int) (hy : margin_bottom ≤ y) :
    ∀ op ∈ draw_markdown_line_with_links sw x y line tf ef fs,
      opGuarded op = true := by
  unfold draw_markdown_line_with_links
  intro op hop
  by_cases h : (findLinks line).2 = []
  · simp only [h, ite_true, if_true, List.append_nil] at hop
    exact drawLinksGo_guarded sw tf ef fs y hy _ _ op hop
  · simp only [h, ite_false, if_false, List.mem_append] at hop
    rcases hop with hop | hop
    · exact drawLinksGo_guarded sw tf ef fs y hy _ _ op hop
    · exact drawSeg_guarded sw _ y _ _ _ _ hy op hop

theorem newPage_state_guard :
    margin_bottom ≤ pageHeight - margin_top := by decide

theorem renderWrapSegs_guarded (env : RenderEnv) (x fs : Int)
    (firstMark contMark : List Char) :
    ∀ (segs : List (List Char)) (isFirst : Bool) (y : Int),
      ∀ op ∈ (renderWrapSegs env x fs firstMark contMark segs isFirst y).1,
        opGuarded op = true := by
  intro segs
  induction segs with
  | nil => intro isFirst y; simp [renderWrapSegs]
  | cons seg rest ih =>
    intro isFirst y op hop
    by_cases h : y < margin_bottom
    · simp [renderWrapSegs, h] at hop
      rcases hop with hop | hop | hop
      · rw [hop]; rfl
      · exact drawMarkdown_guarded _ _ _ _ _ _ _ newPage_state_guard op hop
      · exact ih _ _ op hop
    · have hy : margin_bottom ≤ y := by omega
      simp [renderWrapSegs, h] at hop
      rcases hop with hop | hop
      · exact drawMarkdown_guarded _ _ _ _ _ _ _ hy op hop
      · exact ih _ _ op hop

theorem renderH2Segs_guarded (env : RenderEnv) :
    ∀ (segs : List (List Char)) (y : Int),
      ∀ op ∈ (renderH2Segs env segs y).1, opGuarded op = true := by
  intro segs
  induction segs with
  | nil => intro y; simp [renderH2Segs]
  | cons seg rest ih =>
    intro y op hop
    have hp : pad_y ≤ rect_h := by decide
    have hr0 : (0 : Int) ≤ rect_h := by decide
    by_cases h : y - rect_h < margin_bottom
    · have h2 : margin_bottom ≤ (pageHeight - margin_top) - rect_h := by
        decide
      simp [renderH2Segs, h] at hop
      rcases hop with hop | hop | hop | hop
      · rw [hop]; rfl
      · rw [hop]
        exact opGuarded_rect _ (by omega) _ _ _
      · exact drawMarkdown_guarded _ _ _ _ _ _ _ (by omega) op hop
      · exact ih _ op hop
    · have h2 : margin_bottom ≤ y - rect_h := by omega
      simp [renderH2Segs, h] at hop
      rcases hop with hop | hop | hop
      · rw [hop]
        exact opGuarded_rect _ (by omega) _ _ _
      · exact drawMarkdown_guarded _ _ _ _ _ _ _ (by omega) op hop
      · exact ih _ op hop

theorem draw_thumbnail_guarded (env : RenderEnv)
    (image_url link_url : List Char) (x y size : Int) :
    ∀ op ∈ draw_thumbnail_from_url env image_url link_url x y size,
      opGuarded op = true := by
  unfold draw_thumbnail_from_url
  intro op hop
  by_cases h : image_url = []
  · simp [h] at hop
  · rw [if_neg h] at hop
    cases hf : env.fetchImage image_url with
    | none => rw [hf] at hop; simp at hop
    | some wh =>
      obtain ⟨w, hh⟩ := wh
      rw [hf] at hop
      by_cases hl : link_url = []
      · simp [hl] at hop
        rw [hop]; rfl
      · simp [hl] at hop
        rcases hop with hop | hop <;> (rw [hop]; rfl)

theorem renderLine_guarded (env : RenderEnv) (st : RState)
    (line : List Char) :
    ∀ op ∈ (renderLine env st line).2.1, opGuarded op = true := by
  unfold renderLine
  intro op hop
  by_cases h1 : isBlankLine (rstripNl line) = true
  · simp [h1] at hop
  · by_cases h2 : isSourcesHeader (rstripNl line) = true
    · by_cases hg : st.y - (line_height * 5) / 10 < margin_bottom
      · simp [h1, h2, hg] at hop
        rcases hop with hop | hop
        · rw [hop]; rfl
        · exact drawMarkdown_guarded _ _ _ _ _ _ _ newPage_state_guard
            op hop
      · have hy : margin_bottom ≤ st.y - (line_height * 5) / 10 := by omega
        simp [h1, h2, hg] at hop
        exact drawMarkdown_guarded _ _ _ _ _ _ _ hy op hop
    · by_cases h3 : isHeadlineLine (rstripNl line) = true
      · by_cases hg : st.y - (line_height * 5) / 10 < margin_bottom
        · simp [h1, h2, h3, hg] at hop
          rcases hop with hop | hop
          · rw [hop]; rfl
          · exact renderH2Segs_guarded env _ _ op hop
        · simp [h1, h2, h3, hg] at hop
          exact renderH2Segs_guarded env _ _ op hop
      · cases hbm : bulletMatch (rstripNl line) with
        | some text =>
          by_cases h4 : (findLinks text).1 ≠ []
          · cases hfl : (findLinks text).1 with
            | nil => exact absurd hfl h4
            | cons m1 ms1 =>
              obtain ⟨p1, t1, u1⟩ := m1
              by_cases h5 : st.inSources = true
              · by_cases hg : st.y < margin_bottom
                · simp [h1, h2, h3, hbm, hfl, h5, hg] at hop
                  rcases hop with hop | hop | hop
                  · rw [hop]; rfl
                  · cases henv : env.getThumb u1 with
                    | none => rw [henv] at hop; simp at hop
                    | some tu =>
                      rw [henv] at hop
                      simp at hop
                      exact draw_thumbnail_guarded env _ _ _ _ _ op hop.2
                  · exact drawMarkdown_guarded _ _ _ _ _ _ _
                      newPage_state_guard op hop
                · have hy : margin_bottom ≤ st.y := by omega
                  simp [h1, h2, h3, hbm, hfl, h5, hg] at hop
                  rcases hop with hop | hop
                  · cases henv : env.getThumb u1 with
                    | none => rw [henv] at hop; simp at hop
                    | some tu =>
                      rw [henv] at hop
                      simp at hop
                      exact draw_thumbnail_guarded env _ _ _ _ _ op hop.2
                  · exact drawMarkdown_guarded _ _ _ _ _ _ _ hy op hop
              · by_cases hg : st.y < margin_bottom
                · simp [h1, h2, h3, hbm, hfl, h5, hg] at hop
                  rcases hop with hop | hop
                  · rw [hop]; rfl
                  · exact drawMarkdown_guarded _ _ _ _ _ _ _
                      newPage_state_guard op hop
                · have hy : margin_bottom ≤ st.y := by omega
                  simp [h1, h2, h3, hbm, hfl, h5, hg] at hop
                  exact drawMarkdown_guarded _ _ _ _ _ _ _ hy op hop
          · simp [h1, h2, h3, hbm, h4] at hop
            exact renderWrapSegs_guarded env _ _ _ _ _ _ _ op hop
        | none =>
          simp [h1, h2, h3, hbm] at hop
          exact renderWrapSegs_guarded env _ _ _ _ _ _ _ op hop

theorem renderLines_guarded (env : RenderEnv) :
    ∀ (lines : List (List Char)) (st : RState),
      ∀ op ∈ (renderLines env lines st).2, opGuarded op = true := by
  intro lines
  induction lines with
  | nil => intro st; simp [renderLines]
  | cons l rest ih =>
    intro st op hop
    simp [renderLines] at hop
    rcases hop with hop | hop
    · exact renderLine_guarded env st l op hop
    · exact ih _ op hop

theorem headerOps_guarded (env : RenderEnv) :
    ∀ op ∈ headerOps env, opGuarded op = true := by
  unfold headerOps
  intro op hop
  simp at hop
  rcases hop with hop | hop | hop
  · rw [hop]
    exact opGuarded_rect _ (by decide) _ _ _
  · exact drawSeg_guarded _ _ _ _ _ _ _ (by decide) op hop
  · exact drawSeg_guarded _ _ _ _ _ _ _ (by decide) op hop

theorem headerOps_pageBreaks (env : RenderEnv) :
    pageBreaks (headerOps env) = 0 := by
  unfold headerOps
  simp [drawSeg_pageBreaks]

/-- C2 amended: every text operation's baseline and every filled
rectangle's bottom in the rendered output lies at or above the bottom
margin (each such primitive is preceded by a page-break guard), and the
document's `showPage` count is exactly one more than the number of
mid-render page breaks — so the output has more than one page exactly when
some guarded primitive began below the bottom margin.  Thumbnail images are
not guarded by their own height and may extend below the bottom margin
(see the counterexample). -/
theorem claim_c2_guarded_primitives (env : RenderEnv) (content : List Char) :
    (∀ op ∈ generate_weather_news_pdf_from_markdown env content,
      opGuarded op = true) ∧
    pageBreaks (generate_weather_news_pdf_from_markdown env content) =
      pageBreaks ((renderLines env (splitlines content) initState).2) + 1 := by
  unfold generate_weather_news_pdf_from_markdown
  constructor
  · intro op hop
    simp at hop
    rcases hop with hop | hop | hop
    · exact headerOps_guarded env op hop
    · exact renderLines_guarded env _ _ op hop
    · rw [hop]; rfl
  · simp [headerOps_pageBreaks]

/-- C2 counterexample: a concrete document (sources header, 43 paragraph
lines, then a sources bullet with a resolvable thumbnail) whose thumbnail
image is drawn with its bottom below the bottom margin — indeed below the
page edge — on a page the cursor guard considered roomy; the whole render
stays on one page (`showPage` count 1) even though the cursor ends below
the bottom margin. -/
theorem claim_c2_counterexample :
    ((generate_weather_news_pdf_from_markdown cexEnv
        ((("**📚 Real Sources:**").toList) ++
          (List.replicate 43 ('\n' :: ['x'])).flatten ++
          ('\n' :: ("- [a](http://x)").toList))).any
      (fun op => match op with
        | .image _ y _ _ _ => decide (y < margin_bottom)
        | _ => false) = true) ∧
    pageBreaks (generate_weather_news_pdf_from_markdown cexEnv
        ((("**📚 Real Sources:**").toList) ++
          (List.replicate 43 ('\n' :: ['x'])).flatten ++
          ('\n' :: ("- [a](http://x)").toList))) = 1 ∧
    (renderLines cexEnv (splitlines
        ((("**📚 Real Sources:**").toList) ++
          (List.replicate 43 ('\n' :: ['x'])).flatten ++
          ('\n' :: ("- [a](http://x)").toList))) initState).1.y
      < margin_bottom := by
  decide

/-- Concrete instance of C2's amended theorem: the header bar rectangle of
a small document is guarded, and its page-break count is one more than the
loop's. -/
theorem claim_c2_guarded_primitives_witness :
    opGuarded (DrawOp.rect 0 (pageHeight - header_height) pageWidth
      header_height) = true ∧
    pageBreaks (generate_weather_news_pdf_from_markdown cexEnv
        (("hi").toList)) =
      pageBreaks ((renderLines cexEnv (splitlines (("hi").toList))
        initState).2) + 1 :=
  ⟨(claim_c2_guarded_primitives cexEnv (("hi").toList)).1 _ (by decide),
   (claim_c2_guarded_primitives cexEnv (("hi").toList)).2⟩

end SearchNews
